import Mathlib

/-! KaHyPar: sparse sets and the command-line driver

A verification development for two files of the repository:

* `kahypar/datastructure/sparse_set.h`: the Briggs/Torczon sparse set
  (`SparseSetBase`, `SparseSet`, `InsertOnlySparseSet`);
* `kahypar/application/kahypar.cc`: the `main` function of the partitioner.

`ValueType` is an unsigned integer type of `w` bits.  Values are natural
numbers, and every arithmetic operation of the source that can leave the type
is reduced modulo `2 ^ w`.  The two arrays `_sparse` and `_dense` are the
lists of their allocated cells; an access outside an array is undefined
behaviour in the source and is `none` here.
-/

namespace datastructure

/-- The value `std::numeric_limits<ValueType>::max()` of a `w`-bit unsigned type. -/
def maxValue (w : Nat) : Nat := 2 ^ w - 1

/-- The fields of `SparseSetBase`: `_size`, and the arrays behind `_sparse` and
`_dense`.  `_dense - _sparse` is the length of `sparse`. -/
structure SparseSetBase where
  size : Nat
  sparse : List Nat
  dense : List Nat
deriving DecidableEq, Repr

namespace SparseSetBase

/-- The constructor `SparseSetBase(k)`.  It allocates one buffer of `2 * k`
cells, fills it with the maximum of `ValueType`, and sets `_sparse` to its
start and `_dense` to its cell `k`.

For a `ValueType` narrower than `int` (`w < 32`) the count `2 * k` is computed
in `int`, while the loop counter `i` has type `ValueType`: when `2 * k` exceeds
the maximum of `ValueType` the test `i < 2 * k` never fails, the loop does not
end and no object results.  For the wider types `2 * k` is computed in
`ValueType` and wraps modulo `2 ^ w`: the constructor then returns with a
buffer of `(2 * k) % 2 ^ w` cells only.  The cells `_sparse[0 .. k)` and
`_dense[0 .. k)` that lie inside the buffer are the elements of `sparse` and
`dense`; the others are outside the allocation. -/
def init (w k : Nat) : Option SparseSetBase :=
  if w < 32 ∧ 2 ^ w ≤ 2 * k then none
  else
    let raw := List.replicate ((2 * k) % 2 ^ w) (maxValue w)
    some { size := 0, sparse := raw.take k, dense := raw.drop k }

/-- The iteration range `[begin(), end())`, that is `_dense[0 .. _size)`. -/
def range (s : SparseSetBase) : List Nat := s.dense.take s.size

end SparseSetBase

namespace SparseSet

/-- The private `SparseSet::containsImpl`: `_dense[index]` is read only when
`index < _size`. -/
def containsImpl (s : SparseSetBase) (value : Nat) : Option Bool :=
  match s.sparse[value]? with
  | none => none
  | some index =>
    if index < s.size then
      match s.dense[index]? with
      | none => none
      | some d => some (d == value)
    else some false

/-- The private `SparseSet::addImpl`.  The test is the negation of the one in
`containsImpl`; `_size++` is taken modulo `2 ^ w`. -/
def addImpl (w : Nat) (s : SparseSetBase) (value : Nat) : Option SparseSetBase :=
  match s.sparse[value]? with
  | none => none
  | some index =>
    let absent : Option Bool :=
      if index ≥ s.size then some true
      else match s.dense[index]? with
        | none => none
        | some d => some (d != value)
    match absent with
    | none => none
    | some false => some s
    | some true =>
      if s.size < s.dense.length then
        some { size := (s.size + 1) % 2 ^ w
               sparse := s.sparse.set value s.size
               dense := s.dense.set s.size value }
      else none

/-- The private `SparseSet::clearImpl`. -/
def clearImpl (s : SparseSetBase) : SparseSetBase :=
  { s with size := 0 }

/-- The public `SparseSet::remove`.  In the branch taken `index < _size`, so
`--_size` does not wrap. -/
def remove (s : SparseSetBase) (value : Nat) : Option SparseSetBase :=
  match s.sparse[value]? with
  | none => none
  | some index =>
    let present : Option Bool :=
      if index < s.size then
        match s.dense[index]? with
        | none => none
        | some d => some (d == value)
      else some false
    match present with
    | none => none
    | some false => some s
    | some true =>
      match s.dense[s.size - 1]? with
      | none => none
      | some e =>
        if e < s.sparse.length then
          some { size := s.size - 1
                 dense := s.dense.set index e
                 sparse := s.sparse.set e index }
        else none

/-- The public `contains` of `SparseSetBase<ValueType, SparseSet<ValueType>>`:
it calls `containsImpl` of the class given as `Derived`. -/
def contains (s : SparseSetBase) (value : Nat) : Option Bool :=
  containsImpl s value

/-- The public `add` of `SparseSetBase<ValueType, SparseSet<ValueType>>`. -/
def add (w : Nat) (s : SparseSetBase) (value : Nat) : Option SparseSetBase :=
  addImpl w s value

/-- The public `clear` of `SparseSetBase<ValueType, SparseSet<ValueType>>`. -/
def clear (s : SparseSetBase) : SparseSetBase :=
  clearImpl s

/-- A call that changes a `SparseSet`. -/
inductive Op where
  | add (v : Nat)
  | remove (v : Nat)
  | clear
deriving DecidableEq, Repr

/-- The argument of the call, when it has one, is below `k`. -/
def Op.Below (k : Nat) : Op → Prop
  | Op.add v => v < k
  | Op.remove v => v < k
  | Op.clear => True

instance (k : Nat) (op : Op) : Decidable (Op.Below k op) := by
  cases op <;> unfold Op.Below <;> infer_instance

/-- One call on a `SparseSet`. -/
def step (w : Nat) (s : SparseSetBase) : Op → Option SparseSetBase
  | Op.add v => add w s v
  | Op.remove v => remove s v
  | Op.clear => some (clear s)

/-- A sequence of calls, from left to right. -/
def run (w : Nat) (s : SparseSetBase) : List Op → Option SparseSetBase
  | [] => some s
  | op :: ops =>
    match step w s op with
    | none => none
    | some s' => run w s' ops

/-- The states of a `SparseSet(k)` reachable from construction by `add`,
`remove` and `clear` with arguments below `k`. -/
def Reachable (w k : Nat) (s : SparseSetBase) : Prop :=
  ∃ s0 ops, SparseSetBase.init w k = some s0 ∧ (∀ op ∈ ops, Op.Below k op) ∧
    run w s0 ops = some s

end SparseSet

/-- The representation invariant of a `SparseSet(k)` over a `w`-bit
`ValueType`: `k` is a value of `ValueType`, both arrays have `k` cells, and
every position of the iteration range holds a value below `k` whose `sparse`
entry points back to it. -/
structure SparseSet.Inv (w k : Nat) (s : SparseSetBase) : Prop where
  width : k < 2 ^ w
  sparse_len : s.sparse.length = k
  dense_len : s.dense.length = k
  size_le : s.size ≤ k
  link : ∀ i, i < s.size → ∃ d, s.dense[i]? = some d ∧ d < k ∧ s.sparse[d]? = some i

/-- The list `L` with every occurrence of a value after its first one deleted. -/
def firstOccurrences : List Nat → List Nat
  | [] => []
  | x :: xs => x :: (firstOccurrences xs).filter (fun y => y ≠ x)

namespace SparseSet

/-- A call of the public interface of `SparseSet`, `contains` included. -/
inductive Call where
  | add (v : Nat)
  | remove (v : Nat)
  | contains (v : Nat)
  | clear
deriving DecidableEq, Repr

/-- The argument of the call, when it has one, is below `k`. -/
def Call.Below (k : Nat) : Call → Prop
  | Call.add v => v < k
  | Call.remove v => v < k
  | Call.contains v => v < k
  | Call.clear => True

instance (k : Nat) (c : Call) : Decidable (Call.Below k c) := by
  cases c <;> unfold Call.Below <;> infer_instance

/-- The state after one call; `none` when the call reads or writes a cell
outside `sparse` or `dense`.  A call of `contains` leaves the state as it is. -/
def call (w : Nat) (s : SparseSetBase) : Call → Option SparseSetBase
  | Call.add v => add w s v
  | Call.remove v => remove s v
  | Call.contains v =>
    match contains s v with
    | none => none
    | some _ => some s
  | Call.clear => some (clear s)

/-- The state after a sequence of calls, from left to right; `none` as soon as
one of them leaves the arrays. -/
def calls (w : Nat) (s : SparseSetBase) : List Call → Option SparseSetBase
  | [] => some s
  | c :: cs =>
    match call w s c with
    | none => none
    | some s' => calls w s' cs

end SparseSet

/-- The value `std::numeric_limits<ValueType>::max()` of a signed `w`-bit
type. -/
def maxSigned (w : Nat) : Int := 2 ^ (w - 1) - 1

/-- The fields of a `SparseSet` over a signed `ValueType`, with the buffer as
the constructor lays it out: `_sparse` points to cell 0 of `raw` and `_dense`
to its cell `k`.  The cells may hold negative values. -/
structure SignedSparseSet where
  k : Nat
  size : Int
  raw : List Int
deriving DecidableEq, Repr

namespace SignedSparseSet

/-- The constructor `SparseSetBase(k)` for a signed `ValueType`: a buffer of
`2 * k` cells holding the maximum of the type.  When `2 * k` exceeds that
maximum the signed product overflows, or the loop counter never reaches the
bound, and no object results. -/
def init (w k : Nat) : Option SignedSparseSet :=
  if ((2 * k : Nat) : Int) ≤ maxSigned w then
    some { k := k, size := 0, raw := List.replicate (2 * k) (maxSigned w) }
  else none

/-- The cell `p[i]` for a pointer `p` to cell `off` of the buffer; an index
`off + i` outside the buffer is outside the allocation. -/
def cell (s : SignedSparseSet) (off : Nat) (i : Int) : Option Int :=
  if 0 ≤ (off : Int) + i then s.raw[((off : Int) + i).toNat]? else none

/-- The private `SparseSet::containsImpl` for a signed `ValueType`: `_sparse[value]`
is cell `value` of the buffer and `_dense[index]` its cell `k + index`. -/
def containsImpl (s : SignedSparseSet) (value : Int) : Option Bool :=
  match s.cell 0 value with
  | none => none
  | some index =>
    if index < s.size then
      match s.cell s.k index with
      | none => none
      | some d => some (d == value)
    else some false

end SignedSparseSet

/-- The fields of `InsertOnlySparseSet`: those of its base and `_threshold`. -/
structure InsertOnlySparseSet where
  base : SparseSetBase
  threshold : Nat
deriving DecidableEq, Repr

namespace InsertOnlySparseSet

/-- The constructor `InsertOnlySparseSet(k)`: the base constructor, then
`_threshold(0)`. -/
def init (w k : Nat) : Option InsertOnlySparseSet :=
  match SparseSetBase.init w k with
  | none => none
  | some b => some { base := b, threshold := 0 }

/-- The public `contains` that `InsertOnlySparseSet` inherits.  Its base class
is `SparseSetBase<ValueType, SparseSet<ValueType>>`, so `Derived` is
`SparseSet` and the call goes to `SparseSet::containsImpl`. -/
def contains (s : InsertOnlySparseSet) (value : Nat) : Option Bool :=
  SparseSet.containsImpl s.base value

/-- The public `add` that `InsertOnlySparseSet` inherits: with `Derived` equal
to `SparseSet` it calls `SparseSet::addImpl`. -/
def add (w : Nat) (s : InsertOnlySparseSet) (value : Nat) : Option InsertOnlySparseSet :=
  match SparseSet.addImpl w s.base value with
  | none => none
  | some b => some { s with base := b }

/-- The public `clear` that `InsertOnlySparseSet` inherits: with `Derived`
equal to `SparseSet` it calls `SparseSet::clearImpl`. -/
def clear (s : InsertOnlySparseSet) : InsertOnlySparseSet :=
  { s with base := SparseSet.clearImpl s.base }

/-- The private `InsertOnlySparseSet::containsImpl`. -/
def containsImpl (s : InsertOnlySparseSet) (value : Nat) : Option Bool :=
  match s.base.sparse[value]? with
  | none => none
  | some e => some (e == s.threshold)

/-- The private `InsertOnlySparseSet::addImpl`.  Its test `!contains(value)`
names the inherited public `contains`. -/
def addImpl (w : Nat) (s : InsertOnlySparseSet) (value : Nat) : Option InsertOnlySparseSet :=
  match contains s value with
  | none => none
  | some true => some s
  | some false =>
    if s.base.size < s.base.dense.length then
      some { base := { size := (s.base.size + 1) % 2 ^ w
                       sparse := s.base.sparse.set value s.threshold
                       dense := s.base.dense.set s.base.size value }
             threshold := s.threshold }
    else none

/-- The private `InsertOnlySparseSet::clearImpl`.  The loop runs over the
`_dense - _sparse` cells of `sparse`; `++_threshold` is taken modulo `2 ^ w`. -/
def clearImpl (w : Nat) (s : InsertOnlySparseSet) : InsertOnlySparseSet :=
  let b0 : SparseSetBase := { s.base with size := 0 }
  let s1 : InsertOnlySparseSet :=
    if s.threshold = maxValue w then
      { base := { b0 with
                  sparse := (List.range b0.sparse.length).foldl (fun sp i => sp.set i 0)
                    b0.sparse }
        threshold := 0 }
    else { base := b0, threshold := s.threshold }
  { s1 with threshold := (s1.threshold + 1) % 2 ^ w }

/-- A call of one of the private functions that change an `InsertOnlySparseSet`. -/
inductive Op where
  | addImpl (v : Nat)
  | clearImpl
deriving DecidableEq, Repr

/-- The argument of the call, when it has one, is below `k`. -/
def Op.Below (k : Nat) : Op → Prop
  | Op.addImpl v => v < k
  | Op.clearImpl => True

instance (k : Nat) (op : Op) : Decidable (Op.Below k op) := by
  cases op <;> unfold Op.Below <;> infer_instance

/-- One call of `addImpl` or `clearImpl`. -/
def step (w : Nat) (s : InsertOnlySparseSet) : Op → Option InsertOnlySparseSet
  | Op.addImpl v => addImpl w s v
  | Op.clearImpl => some (clearImpl w s)

/-- A sequence of such calls, from left to right. -/
def run (w : Nat) (s : InsertOnlySparseSet) : List Op → Option InsertOnlySparseSet
  | [] => some s
  | op :: ops =>
    match step w s op with
    | none => none
    | some s' => run w s' ops

end InsertOnlySparseSet

end datastructure

namespace kahypar

/-! ## The driver `main` of `kahypar/application/kahypar.cc`

The types `Context` and `Hypergraph` and every function that `main` calls are
declared outside the two source files.  The hypergraph is a type parameter `H`,
the functions are the fields of `Externals`, and each call that acts on the
outside world is recorded as an `Event` in the order of the source.  Time
stamps are left out. -/

/-- The type `kahypar::HypernodeID`. -/
abbrev HypernodeID := Nat

/-- The type `kahypar::PartitionID`. -/
abbrev PartitionID := Int

/-- Modelled from the spec: the enumeration `kahypar::Mode`, whose declaration
is not in the sources; the spec lists `mode ∈ {direct_kway, recursive_bisection}`. -/
inductive Mode where
  | recursive_bisection
  | direct_kway
deriving DecidableEq, Repr

/-- Modelled from the spec: the enumeration `kahypar::FixedVertexGenerator`,
whose declaration is not in the sources; the spec names the generators
random, bubble and repart, and `other` stands for every remaining value. -/
inductive FixedVertexGenerator where
  | random
  | bubble
  | repart
  | other
deriving DecidableEq, Repr

/-- Modelled from the spec: the members of `context.partition` that `main`
reads; the declaration of `Context` is not in the sources. -/
structure PartitioningParameters where
  quiet_mode : Bool
  global_search_iterations : Nat
  mode : Mode
  seed : Int
  graph_filename : String
  k : PartitionID
  fixed_vertex_generator : FixedVertexGenerator
  write_fixed_vertex_file : Bool
  graph_fixed_vertex_filename : String
  graph_partition_filename : String
  sp_process_output : Bool
deriving DecidableEq, Repr

/-- Modelled from the spec: the member of `context.preprocessing` that `main`
writes; the declaration of `Context` is not in the sources. -/
structure PreprocessingParameters where
  enable_min_hash_sparsifier : Bool
deriving DecidableEq, Repr

/-- Modelled from the spec: the part of `kahypar::Context` that `main` uses;
its declaration is not in the sources. -/
structure Context where
  partition : PartitioningParameters
  preprocessing : PreprocessingParameters
deriving DecidableEq, Repr

/-- The functions that `main` calls and that are declared outside the sources,
over a hypergraph type `H`.  A function that receives `hypergraph` or `context`
by reference returns the values it leaves in them.  `GATHER_STATS` is the
build-time switch of the same name. -/
structure Externals (H : Type) where
  processCommandLineInput : List String → Context
  sanityCheck : Context → Context
  createHypergraphFromFile : String → PartitionID → H
  randomFixedVertexGenerator : H → Context → H × Context
  bubbleFixedVertexGenerator : H → Context → H × Context
  repartitioningFixedVertexGenerator : H → Context → H × Context
  numFixedVertices : H → Nat
  partition : H → Context → H × Context
  fixedVertices : H → List HypernodeID
  partID : H → HypernodeID → PartitionID
  fixedVertexPartID : H → HypernodeID → PartitionID
  GATHER_STATS : Bool

/-- The calls of `main` that act on the outside world. -/
inductive Event (H : Type) where
  | printBanner
  | cerr (message : String)
  | setSeed (seed : Int)
  | createHypergraphFromFile (filename : String) (k : PartitionID)
  | partition (hypergraph : H) (context : Context)
  | logMismatch (hn : HypernodeID) (fixedPart actualPart : PartitionID)
  | writeFixedVertexPartitionFile (hypergraph : H) (filename : String)
  | printPartitioningStatistics
  | printPartitioningResults (hypergraph : H) (context : Context)
  | logEmptyLine
  | writePartitionFile (hypergraph : H) (filename : String)
  | serialize (context : Context) (hypergraph : H)

/-- The event is a call of `writePartitionFile`. -/
def Event.isWritePartitionFile {H : Type} : Event H → Bool
  | Event.writePartitionFile _ _ => true
  | _ => false

/-- What a run of `main` does: its events in order, and the value it returns
or passes to `exit`. -/
structure Outcome (H : Type) where
  trace : List (Event H)
  status : Int

/-- The loop over `hypergraph.fixedVertices()` of `main`: the first hypernode,
in iteration order, whose block differs from its fixed block. -/
def firstMisplacedFixedVertex {H : Type} (X : Externals H) (hypergraph : H) :
    List HypernodeID → Option HypernodeID
  | [] => none
  | hn :: rest =>
    if X.partID hypergraph hn != X.fixedVertexPartID hypergraph hn then some hn
    else firstMisplacedFixedVertex X hypergraph rest

/-- The statements of `main` up to the return of `partitioner.partition`:
either the run ends at the V-cycle check, or it reaches the self-check with a
trace, a hypergraph and a context. -/
def mainThroughPartition {H : Type} (X : Externals H) (argv : List String) :
    Outcome H ⊕ (List (Event H) × H × Context) :=
  let context := X.sanityCheck (X.processCommandLineInput argv)
  let t0 : List (Event H) := if !context.partition.quiet_mode then [Event.printBanner] else []
  if context.partition.global_search_iterations != 0 &&
      context.partition.mode == Mode.recursive_bisection then
    Sum.inl { trace := t0 ++ [Event.cerr "V-Cycles are not supported in recursive bisection mode."]
              status := -1 }
  else
    let t1 := t0 ++ [Event.setSeed context.partition.seed,
      Event.createHypergraphFromFile context.partition.graph_filename context.partition.k]
    let hypergraph :=
      X.createHypergraphFromFile context.partition.graph_filename context.partition.k
    let generated : H × Context :=
      if context.partition.fixed_vertex_generator == FixedVertexGenerator.random then
        X.randomFixedVertexGenerator hypergraph context
      else if context.partition.fixed_vertex_generator == FixedVertexGenerator.bubble then
        X.bubbleFixedVertexGenerator hypergraph context
      else if context.partition.fixed_vertex_generator == FixedVertexGenerator.repart then
        X.repartitioningFixedVertexGenerator hypergraph context
      else (hypergraph, context)
    let hypergraph := generated.1
    let context := generated.2
    let context : Context :=
      if X.numFixedVertices hypergraph > 0 then
        { context with preprocessing := { enable_min_hash_sparsifier := false } }
      else context
    let t2 := t1 ++ [Event.partition hypergraph context]
    let partitioned := X.partition hypergraph context
    Sum.inr (t2, partitioned.1, partitioned.2)

/-- The statements of `main` after `partitioner.partition` returned: the
self-check of the fixed vertices, then the output. -/
def mainAfterPartition {H : Type} (X : Externals H) (t : List (Event H)) (hypergraph : H)
    (context : Context) : Outcome H :=
  match firstMisplacedFixedVertex X hypergraph (X.fixedVertices hypergraph) with
  | some hn =>
    { trace := t ++ [Event.logMismatch hn (X.fixedVertexPartID hypergraph hn)
        (X.partID hypergraph hn)]
      status := -1 }
  | none =>
    let t3 := t ++
      (if context.partition.write_fixed_vertex_file then
        [Event.writeFixedVertexPartitionFile hypergraph
          context.partition.graph_fixed_vertex_filename]
       else [])
    let t4 := t3 ++ (if X.GATHER_STATS then [Event.printPartitioningStatistics] else [])
    let t5 := t4 ++
      (if !context.partition.quiet_mode then
        [Event.printPartitioningResults hypergraph context, Event.logEmptyLine]
       else [])
    let t6 := t5 ++
      [Event.writePartitionFile hypergraph context.partition.graph_partition_filename]
    let t7 := t6 ++
      (if context.partition.sp_process_output then [Event.serialize context hypergraph]
       else [])
    { trace := t7, status := 0 }

/-- The function `main`. -/
def main {H : Type} (X : Externals H) (argv : List String) : Outcome H :=
  match mainThroughPartition X argv with
  | Sum.inl out => out
  | Sum.inr (t, hypergraph, context) => mainAfterPartition X t hypergraph context

/-- A context for evaluating `main`: quiet, direct k-way, `k = 2`, no V-cycles,
no generator. -/
def sampleContext : Context :=
  { partition :=
      { quiet_mode := true
        global_search_iterations := 0
        mode := Mode.direct_kway
        seed := 7
        graph_filename := "in.hgr"
        k := 2
        fixed_vertex_generator := FixedVertexGenerator.other
        write_fixed_vertex_file := false
        graph_fixed_vertex_filename := "in.fix"
        graph_partition_filename := "out.part"
        sp_process_output := false }
    preprocessing := { enable_min_hash_sparsifier := true } }

/-- External functions for evaluating `main` on a hypergraph given by the list
of the blocks of its three hypernodes: hypernodes 0 and 1 are fixed to block 0,
and the partitioner leaves hypernode 1 in block 1. -/
def sampleExternals : Externals (List PartitionID) :=
  { processCommandLineInput := fun _ => sampleContext
    sanityCheck := fun c => c
    createHypergraphFromFile := fun _ _ => [-1, -1, -1]
    randomFixedVertexGenerator := fun h c => (h, c)
    bubbleFixedVertexGenerator := fun h c => (h, c)
    repartitioningFixedVertexGenerator := fun h c => (h, c)
    numFixedVertices := fun _ => 2
    partition := fun _ c => ([0, 1, 1], c)
    fixedVertices := fun _ => [0, 1]
    partID := fun h hn => h.getD hn (-1)
    fixedVertexPartID := fun _ _ => 0
    GATHER_STATS := false }

/-- The event is the seeding of the random number generator. -/
def Event.isSetSeed {H : Type} : Event H → Bool
  | Event.setSeed _ => true
  | _ => false

/-- The event is the reading of the hypergraph file. -/
def Event.isCreateHypergraphFromFile {H : Type} : Event H → Bool
  | Event.createHypergraphFromFile _ _ => true
  | _ => false

/-- The event is the call of `Partitioner::partition`. -/
def Event.isPartition {H : Type} : Event H → Bool
  | Event.partition _ _ => true
  | _ => false

/-- The three fixed-vertex generators, which receive `context` by reference,
leave `context.preprocessing.enable_min_hash_sparsifier` as they find it. -/
def Externals.generatorsKeepSparsifier {H : Type} (X : Externals H) : Prop :=
  ∀ (h : H) (c : Context),
    (X.randomFixedVertexGenerator h c).2.preprocessing.enable_min_hash_sparsifier
      = c.preprocessing.enable_min_hash_sparsifier ∧
    (X.bubbleFixedVertexGenerator h c).2.preprocessing.enable_min_hash_sparsifier
      = c.preprocessing.enable_min_hash_sparsifier ∧
    (X.repartitioningFixedVertexGenerator h c).2.preprocessing.enable_min_hash_sparsifier
      = c.preprocessing.enable_min_hash_sparsifier

/-- The sample context with two V-cycles in recursive bisection mode. -/
def sampleContextVCycles : Context :=
  { sampleContext with
    partition := { sampleContext.partition with
                   global_search_iterations := 2
                   mode := Mode.recursive_bisection
                   quiet_mode := false } }

/-- The sample external functions with the command line of
`sampleContextVCycles`. -/
def sampleExternalsVCycles : Externals (List PartitionID) :=
  { sampleExternals with processCommandLineInput := fun _ => sampleContextVCycles }

/-- The sample external functions on a hypergraph without fixed vertices, with
the bubble generator selected. -/
def sampleExternalsFree : Externals (List PartitionID) :=
  { sampleExternals with
    processCommandLineInput := fun _ =>
      { sampleContext with
        partition := { sampleContext.partition with
                       fixed_vertex_generator := FixedVertexGenerator.bubble } }
    numFixedVertices := fun _ => 0
    fixedVertices := fun _ => [] }

end kahypar

namespace datastructure

/-! ## `SparseSet`: the invariant is kept and decides `contains` -/

theorem SparseSetBase.mem_range_iff_getElem (s : SparseSetBase) (x : Nat) :
    x ∈ s.range ↔ ∃ i, i < s.size ∧ s.dense[i]? = some x := by
  unfold SparseSetBase.range
  rw [List.mem_iff_getElem?]
  constructor
  · rintro ⟨i, hi⟩
    rw [List.getElem?_take] at hi
    by_cases h : i < s.size
    · exact ⟨i, h, by simpa [h] using hi⟩
    · simp [h] at hi
  · rintro ⟨i, h, hi⟩
    exact ⟨i, by rw [List.getElem?_take]; simpa [h] using hi⟩

/-- The object that the constructor builds when `2 * k` fits `ValueType`: both
arrays have their `k` cells, all holding the maximum of `ValueType`. -/
theorem SparseSetBase.init_of_fits {w k : Nat} (hk : 2 * k < 2 ^ w) :
    SparseSetBase.init w k =
      some { size := 0, sparse := List.replicate k (maxValue w),
             dense := List.replicate k (maxValue w) } := by
  unfold SparseSetBase.init
  rw [if_neg (by omega), Nat.mod_eq_of_lt hk]
  simp only [List.take_replicate, List.drop_replicate]
  congr 3 <;> omega

/-- When `2 * k` does not fit `ValueType` and the constructor returns, `dense`
lies outside the buffer altogether. -/
theorem SparseSetBase.init_of_wraps {w k : Nat} {s : SparseSetBase} (hk : 2 ^ w ≤ 2 * k)
    (h : SparseSetBase.init w k = some s) : s.size = 0 ∧ s.dense = [] := by
  unfold SparseSetBase.init at h
  split at h
  · exact absurd h (by simp)
  · simp only [Option.some.injEq] at h
    rw [← h]
    refine ⟨rfl, ?_⟩
    simp only [List.drop_replicate, List.replicate_eq_nil_iff]
    have hpos : 0 < 2 ^ w := Nat.two_pow_pos w
    by_cases hkw : k < 2 ^ w
    · have hsub : (2 * k) % 2 ^ w = 2 * k - 2 ^ w := by
        rw [Nat.mod_eq_sub_mod hk]
        exact Nat.mod_eq_of_lt (by omega)
      omega
    · have hlt : (2 * k) % 2 ^ w < 2 ^ w := Nat.mod_lt _ hpos
      omega

theorem SparseSetBase.init_eq {w k : Nat} {s : SparseSetBase} (hk : 2 * k < 2 ^ w)
    (h : SparseSetBase.init w k = some s) :
    s = { size := 0, sparse := List.replicate k (maxValue w),
          dense := List.replicate k (maxValue w) } := by
  rw [SparseSetBase.init_of_fits hk] at h
  exact (Option.some.inj h).symm

theorem SparseSet.inv_init {w k : Nat} {s : SparseSetBase} (hk : 2 * k < 2 ^ w)
    (h : SparseSetBase.init w k = some s) : SparseSet.Inv w k s := by
  rw [SparseSetBase.init_eq hk h]
  exact ⟨by omega, by simp, by simp, by simp, fun i hi => absurd hi (by simp)⟩

namespace SparseSet

theorem Inv.sparse_some {w k : Nat} {s : SparseSetBase} (h : Inv w k s) {x : Nat}
    (hx : x < k) : ∃ idx, s.sparse[x]? = some idx := by
  have : x < s.sparse.length := by rw [h.sparse_len]; exact hx
  exact ⟨s.sparse[x], List.getElem?_eq_getElem this⟩

theorem Inv.mem_range_iff {w k : Nat} {s : SparseSetBase} (h : Inv w k s) {x idx : Nat}
    (hs : s.sparse[x]? = some idx) :
    x ∈ s.range ↔ idx < s.size ∧ s.dense[idx]? = some x := by
  rw [SparseSetBase.mem_range_iff_getElem]
  constructor
  · rintro ⟨i, hi, hd⟩
    obtain ⟨d, hd', _, hsp⟩ := h.link i hi
    rw [hd] at hd'
    cases hd'
    rw [hs] at hsp
    cases hsp
    exact ⟨hi, hd⟩
  · rintro ⟨hi, hd⟩
    exact ⟨idx, hi, hd⟩

theorem Inv.lt_of_mem_range {w k : Nat} {s : SparseSetBase} (h : Inv w k s) {x : Nat}
    (hx : x ∈ s.range) : x < k := by
  obtain ⟨i, hi, hd⟩ := (SparseSetBase.mem_range_iff_getElem s x).1 hx
  obtain ⟨d, hd', hlt, _⟩ := h.link i hi
  rw [hd] at hd'
  cases hd'
  exact hlt

theorem Inv.length_range {w k : Nat} {s : SparseSetBase} (h : Inv w k s) :
    s.range.length = s.size := by
  unfold SparseSetBase.range
  rw [List.length_take, h.dense_len]
  exact Nat.min_eq_left h.size_le

theorem Inv.nodup_range {w k : Nat} {s : SparseSetBase} (h : Inv w k s) :
    s.range.Nodup := by
  rw [List.nodup_iff_getElem?_ne_getElem?]
  intro i j hij hj heq
  rw [h.length_range] at hj
  unfold SparseSetBase.range at heq
  rw [List.getElem?_take, List.getElem?_take, if_pos hj, if_pos (Nat.lt_trans hij hj)] at heq
  obtain ⟨d, hd, _, hsp⟩ := h.link i (Nat.lt_trans hij hj)
  obtain ⟨d', hd', _, hsp'⟩ := h.link j hj
  rw [hd, hd'] at heq
  cases heq
  rw [hsp] at hsp'
  cases hsp'
  exact Nat.lt_irrefl _ hij

/-- The value of `containsImpl` under the invariant: membership in the
iteration range. -/
theorem Inv.containsImpl_eq {w k : Nat} {s : SparseSetBase} (h : Inv w k s) {x : Nat}
    (hx : x < k) : containsImpl s x = some (decide (x ∈ s.range)) := by
  obtain ⟨idx, hs⟩ := h.sparse_some hx
  have hm := h.mem_range_iff hs
  unfold containsImpl
  rw [hs]
  by_cases hlt : idx < s.size
  · obtain ⟨d, hd, _, _⟩ := h.link idx hlt
    simp [hlt, hd, hm, Nat.beq_eq_true_eq, beq_eq_decide]
  · simp [hlt, hm]

/-- A value below `k` that is not in the range leaves room for one more
element. -/
theorem Inv.size_lt {w k : Nat} {s : SparseSetBase} (h : Inv w k s) {v : Nat}
    (hv : v < k) (hnot : v ∉ s.range) : s.size < k := by
  have hnd : (v :: s.range).Nodup := List.nodup_cons.2 ⟨hnot, h.nodup_range⟩
  have hsub : v :: s.range ⊆ List.range k := by
    intro x hx
    rw [List.mem_range]
    rcases List.mem_cons.1 hx with rfl | hx
    · exact hv
    · exact h.lt_of_mem_range hx
  have hlen := (List.subperm_of_subset hnd hsub).length_le
  rw [List.length_cons, h.length_range, List.length_range] at hlen
  omega

/-- The result of `addImpl` on a value that is already in the range. -/
theorem Inv.addImpl_of_mem {w k : Nat} {s : SparseSetBase} (h : Inv w k s) {v : Nat}
    (hv : v < k) (hmem : v ∈ s.range) : addImpl w s v = some s := by
  obtain ⟨idx, hs⟩ := h.sparse_some hv
  obtain ⟨hlt, hd⟩ := (h.mem_range_iff hs).1 hmem
  have hnle : ¬ s.size ≤ idx := Nat.not_le.2 hlt
  unfold addImpl
  simp [hs, hnle, hd]

/-- The result of `addImpl` on a value that is not in the range. -/
theorem Inv.addImpl_of_not_mem {w k : Nat} {s : SparseSetBase} (h : Inv w k s) {v : Nat}
    (hv : v < k) (hmem : v ∉ s.range) :
    addImpl w s v = some { size := s.size + 1
                           sparse := s.sparse.set v s.size
                           dense := s.dense.set s.size v } := by
  obtain ⟨idx, hs⟩ := h.sparse_some hv
  have hsz := h.size_lt hv hmem
  have hw := h.width
  have hmod : (s.size + 1) % 2 ^ w = s.size + 1 := Nat.mod_eq_of_lt (by omega)
  have hlen : s.size < s.dense.length := by rw [h.dense_len]; exact hsz
  unfold addImpl
  rw [hs]
  by_cases hlt : idx < s.size
  · obtain ⟨d, hd, _, _⟩ := h.link idx hlt
    have hne : d ≠ v := by
      rintro rfl
      exact hmem ((h.mem_range_iff hs).2 ⟨hlt, hd⟩)
    have hnle : ¬ s.size ≤ idx := Nat.not_le.2 hlt
    have hb : (d != v) = true := bne_iff_ne.2 hne
    simp [hnle, hd, hb, hmod, hlen]
  · have hge : s.size ≤ idx := Nat.le_of_not_lt hlt
    simp [hge, hmod, hlen]

/-- The state after appending `v` satisfies the invariant again. -/
theorem Inv.append {w k : Nat} {s : SparseSetBase} (h : Inv w k s) {v : Nat}
    (hv : v < k) (hmem : v ∉ s.range) :
    Inv w k { size := s.size + 1
              sparse := s.sparse.set v s.size
              dense := s.dense.set s.size v } := by
  have hsz := h.size_lt hv hmem
  refine ⟨h.width, by simp [h.sparse_len], by simp [h.dense_len], hsz, ?_⟩
  intro i hi
  simp only at hi ⊢
  by_cases hie : i = s.size
  · subst hie
    refine ⟨v, ?_, hv, ?_⟩
    · rw [List.getElem?_set_self (by rw [h.dense_len]; exact hsz)]
    · rw [List.getElem?_set_self (by rw [h.sparse_len]; exact hv)]
  · have hlt : i < s.size := by omega
    obtain ⟨d, hd, hdk, hsp⟩ := h.link i hlt
    have hne : d ≠ v := by
      rintro rfl
      exact hmem ((SparseSetBase.mem_range_iff_getElem s d).2 ⟨i, hlt, hd⟩)
    refine ⟨d, ?_, hdk, ?_⟩
    · rw [List.getElem?_set_ne (Ne.symm hie)]; exact hd
    · rw [List.getElem?_set_ne (Ne.symm hne)]; exact hsp

/-- The iteration range after appending `v`. -/
theorem Inv.range_append {w k : Nat} {s : SparseSetBase} (h : Inv w k s) {v : Nat}
    (hv : v < k) (hmem : v ∉ s.range) :
    SparseSetBase.range { size := s.size + 1
                          sparse := s.sparse.set v s.size
                          dense := s.dense.set s.size v } = s.range ++ [v] := by
  have hsz := h.size_lt hv hmem
  unfold SparseSetBase.range
  simp only
  rw [List.take_succ, List.getElem?_set_self (by rw [h.dense_len]; exact hsz),
    List.set_take, List.set_eq_of_length_le (by simp)]
  rfl

/-- What `addImpl` does in a state that satisfies the invariant: it returns, the
invariant holds again, and `v` is appended to the range unless it is there. -/
theorem Inv.addImpl_spec {w k : Nat} {s : SparseSetBase} (h : Inv w k s) {v : Nat}
    (hv : v < k) :
    ∃ s1, addImpl w s v = some s1 ∧ Inv w k s1 ∧
      s1.range = if v ∈ s.range then s.range else s.range ++ [v] := by
  by_cases hmem : v ∈ s.range
  · exact ⟨s, h.addImpl_of_mem hv hmem, h, by simp [hmem]⟩
  · exact ⟨_, h.addImpl_of_not_mem hv hmem, h.append hv hmem, by
      rw [h.range_append hv hmem]; simp [hmem]⟩

theorem Inv.clearImpl_inv {w k : Nat} {s : SparseSetBase} (h : Inv w k s) :
    Inv w k (clearImpl s) :=
  ⟨h.width, h.sparse_len, h.dense_len, Nat.zero_le _, fun i hi => absurd hi (Nat.not_lt_zero i)⟩

/-- The result of `remove` on a value that is not in the range. -/
theorem Inv.remove_of_not_mem {w k : Nat} {s : SparseSetBase} (h : Inv w k s) {v : Nat}
    (hv : v < k) (hmem : v ∉ s.range) : remove s v = some s := by
  obtain ⟨idx, hs⟩ := h.sparse_some hv
  unfold remove
  rw [hs]
  by_cases hlt : idx < s.size
  · obtain ⟨d, hd, _, _⟩ := h.link idx hlt
    have hne : d ≠ v := by
      rintro rfl
      exact hmem ((h.mem_range_iff hs).2 ⟨hlt, hd⟩)
    have hb : (d == v) = false := beq_eq_false_iff_ne.2 hne
    simp [hlt, hd, hb]
  · simp [hlt]

/-- The result of `remove` on a value in the range: the last element of the
range moves into its place. -/
theorem Inv.remove_of_mem {w k : Nat} {s : SparseSetBase} (h : Inv w k s) {v : Nat}
    (hv : v < k) (hmem : v ∈ s.range) :
    ∃ idx e, s.sparse[v]? = some idx ∧ idx < s.size ∧ s.dense[idx]? = some v ∧
      s.dense[s.size - 1]? = some e ∧ e < k ∧ s.sparse[e]? = some (s.size - 1) ∧
      remove s v = some { size := s.size - 1
                          dense := s.dense.set idx e
                          sparse := s.sparse.set e idx } := by
  obtain ⟨idx, hs⟩ := h.sparse_some hv
  obtain ⟨hlt, hd⟩ := (h.mem_range_iff hs).1 hmem
  obtain ⟨e, he, hek, hse⟩ := h.link (s.size - 1) (by omega)
  refine ⟨idx, e, hs, hlt, hd, he, hek, hse, ?_⟩
  have hel : e < s.sparse.length := by rw [h.sparse_len]; exact hek
  unfold remove
  simp [hs, hlt, hd, he, hel]

/-- The state after `remove` moved the last element into position `idx`
satisfies the invariant again. -/
theorem Inv.swap_tail {w k : Nat} {s : SparseSetBase} (h : Inv w k s) {v idx e : Nat}
    (hs : s.sparse[v]? = some idx) (hlt : idx < s.size)
    (he : s.dense[s.size - 1]? = some e) (hek : e < k) :
    Inv w k { size := s.size - 1
              dense := s.dense.set idx e
              sparse := s.sparse.set e idx } := by
  have hsz := h.size_le
  refine ⟨h.width, by simp [h.sparse_len], by simp [h.dense_len], by simp only; omega, ?_⟩
  intro i hi
  simp only at hi ⊢
  by_cases hie : i = idx
  · subst hie
    refine ⟨e, ?_, hek, ?_⟩
    · rw [List.getElem?_set_self (by rw [h.dense_len]; omega)]
    · rw [List.getElem?_set_self (by rw [h.sparse_len]; exact hek)]
  · obtain ⟨d, hd, hdk, hsp⟩ := h.link i (by omega)
    have hne : d ≠ e := by
      rintro rfl
      obtain ⟨e', he', _, hse'⟩ := h.link (s.size - 1) (by omega)
      rw [he] at he'
      cases he'
      rw [hsp] at hse'
      cases hse'
      omega
    refine ⟨d, ?_, hdk, ?_⟩
    · rw [List.getElem?_set_ne (Ne.symm hie)]; exact hd
    · rw [List.getElem?_set_ne (Ne.symm hne)]; exact hsp

/-- The members of the range after `remove` moved the last element into the
position of `v`: those of the old range other than `v`. -/
theorem Inv.mem_range_swap_tail {w k : Nat} {s : SparseSetBase} (h : Inv w k s)
    {v idx e : Nat} (hs : s.sparse[v]? = some idx) (hlt : idx < s.size)
    (hd : s.dense[idx]? = some v) (he : s.dense[s.size - 1]? = some e) (x : Nat) :
    x ∈ SparseSetBase.range { size := s.size - 1
                              dense := s.dense.set idx e
                              sparse := s.sparse.set e idx } ↔ x ∈ s.range ∧ x ≠ v := by
  have hsz := h.size_le
  have hil : idx < s.dense.length := by rw [h.dense_len]; omega
  rw [SparseSetBase.mem_range_iff_getElem, SparseSetBase.mem_range_iff_getElem]
  simp only
  constructor
  · rintro ⟨i, hi, hx⟩
    by_cases hie : i = idx
    · subst hie
      rw [List.getElem?_set_self hil] at hx
      cases hx
      refine ⟨⟨s.size - 1, by omega, he⟩, ?_⟩
      rintro rfl
      obtain ⟨e', he', _, hse'⟩ := h.link (s.size - 1) (by omega)
      rw [he] at he'
      cases he'
      rw [hs] at hse'
      cases hse'
      omega
    · rw [List.getElem?_set_ne (Ne.symm hie)] at hx
      refine ⟨⟨i, by omega, hx⟩, ?_⟩
      rintro rfl
      obtain ⟨d, hd', _, hsp⟩ := h.link i (by omega)
      rw [hx] at hd'
      cases hd'
      rw [hs] at hsp
      cases hsp
      exact hie rfl
  · rintro ⟨⟨j, hj, hx⟩, hne⟩
    have hji : j ≠ idx := by
      rintro rfl
      rw [hd] at hx
      cases hx
      exact hne rfl
    by_cases hjl : j = s.size - 1
    · subst hjl
      rw [he] at hx
      cases hx
      exact ⟨idx, by omega, List.getElem?_set_self hil⟩
    · exact ⟨j, by omega, by rw [List.getElem?_set_ne (Ne.symm hji)]; exact hx⟩

/-- What `remove` does in a state that satisfies the invariant: it returns, the
invariant holds again, and the range loses `v` and nothing else. -/
theorem Inv.remove_spec {w k : Nat} {s : SparseSetBase} (h : Inv w k s) {v : Nat}
    (hv : v < k) :
    ∃ s1, remove s v = some s1 ∧ Inv w k s1 ∧
      ∀ x, x ∈ s1.range ↔ x ∈ s.range ∧ x ≠ v := by
  by_cases hmem : v ∈ s.range
  · obtain ⟨idx, e, hs, hlt, hd, he, hek, _, hr⟩ := h.remove_of_mem hv hmem
    exact ⟨_, hr, h.swap_tail hs hlt he hek, h.mem_range_swap_tail hs hlt hd he⟩
  · refine ⟨s, h.remove_of_not_mem hv hmem, h, fun x => ⟨fun hx => ⟨hx, ?_⟩, fun hx => hx.1⟩⟩
    rintro rfl
    exact hmem hx

theorem Inv.step_inv {w k : Nat} {s : SparseSetBase} (h : Inv w k s) {op : Op}
    (hop : Op.Below k op) : ∃ s1, step w s op = some s1 ∧ Inv w k s1 := by
  cases op with
  | add v =>
    obtain ⟨s1, h1, hi, _⟩ := h.addImpl_spec (show v < k from hop)
    exact ⟨s1, h1, hi⟩
  | remove v =>
    obtain ⟨s1, h1, hi, _⟩ := h.remove_spec (show v < k from hop)
    exact ⟨s1, h1, hi⟩
  | clear => exact ⟨_, rfl, h.clearImpl_inv⟩

/-- Calls with arguments below `k` never leave the arrays: the whole sequence
returns, in a state that satisfies the invariant. -/
theorem Inv.run_inv {w k : Nat} (ops : List Op) :
    ∀ {s : SparseSetBase}, Inv w k s → (∀ op ∈ ops, Op.Below k op) →
      ∃ s1, run w s ops = some s1 ∧ Inv w k s1 := by
  induction ops with
  | nil => intro s h _; exact ⟨s, rfl, h⟩
  | cons op ops ih =>
    intro s h hops
    obtain ⟨s1, h1, hi⟩ := h.step_inv (hops op (List.mem_cons_self _ _))
    obtain ⟨s2, h2, hi2⟩ := ih hi (fun o ho => hops o (List.mem_cons_of_mem _ ho))
    refine ⟨s2, ?_, hi2⟩
    simp only [SparseSet.run, h1]
    exact h2

theorem Reachable.inv {w k : Nat} {s : SparseSetBase} (hk : 2 * k < 2 ^ w)
    (h : Reachable w k s) : Inv w k s := by
  obtain ⟨s0, ops, h0, hops, hrun⟩ := h
  obtain ⟨s1, h1, hi⟩ := (inv_init hk h0).run_inv ops hops
  rw [hrun] at h1
  cases h1
  exact hi

/-- A state with `size = 0` contains nothing, whatever its arrays hold. -/
theorem containsImpl_of_size_zero {s : SparseSetBase} (hz : s.size = 0) (x : Nat) :
    containsImpl s x ≠ some true := by
  unfold containsImpl
  cases s.sparse[x]? with
  | none => simp
  | some index => simp [hz]

/-- In a state with `size = 0`, `remove` changes nothing when it returns. -/
theorem remove_of_size_zero {s s1 : SparseSetBase} (hz : s.size = 0) {v : Nat}
    (h : remove s v = some s1) : s1 = s := by
  unfold remove at h
  cases hsp : s.sparse[v]? with
  | none => rw [hsp] at h; exact absurd h (by simp)
  | some index =>
    rw [hsp] at h
    simp only [hz, Nat.not_lt_zero, if_false, Option.some.injEq] at h
    exact h.symm

/-- With `dense` outside the buffer, `addImpl` never returns. -/
theorem addImpl_of_no_dense (w : Nat) {s : SparseSetBase} (hz : s.size = 0)
    (hd : s.dense = []) (v : Nat) : addImpl w s v = none := by
  unfold addImpl
  cases s.sparse[v]? with
  | none => rfl
  | some index => simp [hz, hd]

/-- From a state with `size = 0` and `dense` outside the buffer, the calls that
return lead to such states only. -/
theorem run_of_no_dense (w : Nat) (ops : List Op) :
    ∀ {s s1 : SparseSetBase}, s.size = 0 → s.dense = [] → run w s ops = some s1 →
      s1.size = 0 ∧ s1.dense = [] := by
  induction ops with
  | nil =>
    intro s s1 hz hd h
    simp only [run, Option.some.injEq] at h
    rw [← h]
    exact ⟨hz, hd⟩
  | cons op ops ih =>
    intro s s1 hz hd h
    simp only [run] at h
    cases hstep : step w s op with
    | none => rw [hstep] at h; exact absurd h (by simp)
    | some s2 =>
      rw [hstep] at h
      have h2 : s2.size = 0 ∧ s2.dense = [] := by
        cases op with
        | add v =>
          simp only [step, add, addImpl_of_no_dense w hz hd v] at hstep
          exact absurd hstep (by simp)
        | remove v =>
          rw [remove_of_size_zero hz (show remove s v = some s2 from hstep)]
          exact ⟨hz, hd⟩
        | clear =>
          simp only [step, clear, clearImpl, Option.some.injEq] at hstep
          rw [← hstep]
          exact ⟨rfl, hd⟩
      exact ih h2.1 h2.2 h

/-- A reachable state satisfies the invariant, or it comes from a constructor
whose `2 * k` wrapped: then it is empty and `dense` lies outside the buffer. -/
theorem Reachable.inv_or_no_dense {w k : Nat} {s : SparseSetBase} (h : Reachable w k s) :
    Inv w k s ∨ (s.size = 0 ∧ s.dense = []) := by
  by_cases hk : 2 * k < 2 ^ w
  · exact Or.inl (h.inv hk)
  · obtain ⟨s0, ops, h0, _, hrun⟩ := h
    obtain ⟨hz, hd⟩ := SparseSetBase.init_of_wraps (Nat.le_of_not_lt hk) h0
    exact Or.inr (run_of_no_dense w ops hz hd hrun)

theorem Reachable.of_init {w k : Nat} {s : SparseSetBase}
    (h : SparseSetBase.init w k = some s) : Reachable w k s :=
  ⟨s, [], h, fun _ ho => absurd ho (List.not_mem_nil _), rfl⟩

theorem run_append (w : Nat) (ops1 ops2 : List Op) :
    ∀ s : SparseSetBase,
      run w s (ops1 ++ ops2) = (run w s ops1).bind (fun s1 => run w s1 ops2) := by
  induction ops1 with
  | nil => intro s; rfl
  | cons op ops ih =>
    intro s
    simp only [List.cons_append, SparseSet.run]
    cases step w s op with
    | none => rfl
    | some s1 => exact ih s1

theorem Reachable.step_reachable {w k : Nat} {s s1 : SparseSetBase} (h : Reachable w k s)
    {op : Op} (hop : Op.Below k op) (h1 : SparseSet.step w s op = some s1) :
    Reachable w k s1 := by
  obtain ⟨s0, ops, h0, hops, hrun⟩ := h
  refine ⟨s0, ops ++ [op], h0, ?_, ?_⟩
  · intro o ho
    rcases List.mem_append.1 ho with ho | ho
    · exact hops o ho
    · rw [List.mem_singleton.1 ho]; exact hop
  · rw [run_append, hrun]
    simp only [Option.bind, SparseSet.run, h1]

end SparseSet

/-! ## `SparseSet`: the contracts of `add`, `remove`, `clear` and iteration -/

theorem mem_firstOccurrences (L : List Nat) (x : Nat) :
    x ∈ firstOccurrences L ↔ x ∈ L := by
  induction L with
  | nil => simp [firstOccurrences]
  | cons y ys ih =>
    simp only [firstOccurrences, List.mem_cons, List.mem_filter, ih]
    by_cases h : x = y <;> simp [h]

theorem nodup_firstOccurrences (L : List Nat) : (firstOccurrences L).Nodup := by
  induction L with
  | nil => simp [firstOccurrences]
  | cons y ys ih =>
    simp only [firstOccurrences, List.nodup_cons, List.mem_filter]
    exact ⟨fun h => by simp at h, ih.filter _⟩

/-- Deleting repeated occurrences keeps the order of the list. -/
theorem firstOccurrences_sublist (L : List Nat) : (firstOccurrences L).Sublist L := by
  induction L with
  | nil => exact List.Sublist.slnil
  | cons y ys ih =>
    simp only [firstOccurrences]
    exact ((List.filter_sublist _).trans ih).cons₂ y

/-- On a list that already has no repetition nothing is deleted. -/
theorem firstOccurrences_of_nodup (L : List Nat) (h : L.Nodup) : firstOccurrences L = L := by
  induction L with
  | nil => rfl
  | cons y ys ih =>
    obtain ⟨hy, hys⟩ := List.nodup_cons.1 h
    simp only [firstOccurrences, ih hys]
    congr 1
    rw [List.filter_eq_self]
    intro a ha
    have : a ≠ y := by rintro rfl; exact hy ha
    simp [this]

namespace SparseSet

/-- Adding the values of `L` in order appends to the range, in order of first
occurrence, those that are not in it yet. -/
theorem Inv.run_adds {w k : Nat} (L : List Nat) :
    ∀ {s : SparseSetBase}, Inv w k s → (∀ v ∈ L, v < k) →
      ∃ s1, SparseSet.run w s (L.map Op.add) = some s1 ∧ Inv w k s1 ∧
        s1.range = s.range ++ (firstOccurrences L).filter (fun y => decide (y ∉ s.range)) := by
  induction L with
  | nil => intro s h _; exact ⟨s, rfl, h, by simp [firstOccurrences]⟩
  | cons x xs ih =>
    intro s h hL
    obtain ⟨s1, h1, hi1, hr1⟩ := h.addImpl_spec (hL x (List.mem_cons_self _ _))
    obtain ⟨s2, h2, hi2, hr2⟩ := ih hi1 (fun v hv => hL v (List.mem_cons_of_mem _ hv))
    refine ⟨s2, ?_, hi2, ?_⟩
    · simp only [List.map_cons, SparseSet.run, SparseSet.step, SparseSet.add, h1]
      exact h2
    · rw [hr2, hr1]
      simp only [firstOccurrences]
      by_cases hmem : x ∈ s.range
      · rw [if_pos hmem, List.filter_cons_of_neg (by simpa using hmem), List.filter_filter]
        congr 1
        apply List.filter_congr
        intro y _
        by_cases hy : y = x
        · subst hy; simp [hmem]
        · simp [hy]
      · rw [if_neg hmem, List.filter_cons_of_pos (by simpa using hmem), List.filter_filter,
          List.append_assoc, List.singleton_append]
        congr 2
        apply List.filter_congr
        intro y _
        by_cases hy : y = x
        · subst hy; simp
        · simp [hy, List.mem_append]

end SparseSet

/-- C1, as stated, fails for a capacity whose double does not fit `ValueType`:
the constructor of `SparseSet<uint32_t>(2147483649)` computes `2 * k = 2`,
returns with a buffer of two cells, and `add(0)` in this state writes
`dense[0]` outside the allocation. -/
theorem SparseSet_add_contains_counterexample :
    SparseSetBase.init 32 2147483649 = some ⟨0, [4294967295, 4294967295], []⟩ ∧
    SparseSet.Reachable 32 2147483649 ⟨0, [4294967295, 4294967295], []⟩ ∧
    0 < 2147483649 ∧
    SparseSet.add 32 ⟨0, [4294967295, 4294967295], []⟩ 0 = none :=
  ⟨by decide, ⟨⟨0, [4294967295, 4294967295], []⟩, [], by decide, by decide, rfl⟩, by decide, by decide⟩

/-- C1, amended. For a capacity `k` with `2 * k` in `ValueType`: in every state
of a `SparseSet(k)` reachable from construction by `add`, `remove` and `clear`
with arguments below `k`, and for every `v < k`, the call `add(v)` returns,
`contains(v)` is true afterwards, and `contains(x)` has its earlier value for
every other `x < k`. -/
theorem SparseSet_add_contains (w k : Nat) (hk : 2 * k < 2 ^ w) (s : SparseSetBase)
    (hr : SparseSet.Reachable w k s) (v : Nat) (hv : v < k) :
    ∃ s1, SparseSet.add w s v = some s1 ∧ SparseSet.contains s1 v = some true ∧
      ∀ x, x < k → x ≠ v →
        ∃ b, SparseSet.contains s x = some b ∧ SparseSet.contains s1 x = some b := by
  have h := hr.inv hk
  obtain ⟨s1, h1, hi1, hr1⟩ := h.addImpl_spec (w := w) hv
  have hmem : ∀ x, x ∈ s1.range ↔ x ∈ s.range ∨ x = v := by
    intro x
    rw [hr1]
    by_cases hm : v ∈ s.range
    · rw [if_pos hm]
      exact ⟨Or.inl, fun hx => hx.elim id (fun e => e ▸ hm)⟩
    · rw [if_neg hm, List.mem_append, List.mem_singleton]
  refine ⟨s1, h1, ?_, ?_⟩
  · unfold SparseSet.contains
    rw [hi1.containsImpl_eq hv]
    simp [hmem]
  · intro x hx hne
    refine ⟨decide (x ∈ s.range), h.containsImpl_eq hx, ?_⟩
    unfold SparseSet.contains
    rw [hi1.containsImpl_eq hx]
    simp [hmem, hne]

/-- C1 at `SparseSet<uint8_t>(3)` holding the value 1: `add(2)`. -/
theorem SparseSet_add_contains_witness :
    2 * 3 < 2 ^ 8 ∧ SparseSet.Reachable 8 3 ⟨1, [255, 0, 255], [1, 255, 255]⟩ ∧ 2 < 3 ∧
    ∃ s1, SparseSet.add 8 ⟨1, [255, 0, 255], [1, 255, 255]⟩ 2 = some s1 ∧
      SparseSet.contains s1 2 = some true ∧
      ∀ x, x < 3 → x ≠ 2 →
        ∃ b, SparseSet.contains ⟨1, [255, 0, 255], [1, 255, 255]⟩ x = some b ∧
          SparseSet.contains s1 x = some b :=
  have hr : SparseSet.Reachable 8 3 ⟨1, [255, 0, 255], [1, 255, 255]⟩ :=
    ⟨⟨0, [255, 255, 255], [255, 255, 255]⟩, [SparseSet.Op.add 1], by decide, by decide,
      by decide⟩
  ⟨by decide, hr, by decide, SparseSet_add_contains 8 3 (by decide) _ hr 2 (by decide)⟩

/-- C2, as stated, fails for a capacity whose double does not fit `ValueType`:
in the state that the constructor of `SparseSet<uint32_t>(2147483649)` returns,
with a buffer of two cells, `remove(3)` reads `sparse[3]` outside the
allocation. -/
theorem SparseSet_remove_contains_counterexample :
    SparseSetBase.init 32 2147483649 = some ⟨0, [4294967295, 4294967295], []⟩ ∧
    SparseSet.Reachable 32 2147483649 ⟨0, [4294967295, 4294967295], []⟩ ∧
    3 < 2147483649 ∧
    SparseSet.remove ⟨0, [4294967295, 4294967295], []⟩ 3 = none :=
  ⟨by decide, ⟨⟨0, [4294967295, 4294967295], []⟩, [], by decide, by decide, rfl⟩, by decide, by decide⟩

/-- C2, amended. For a capacity `k` with `2 * k` in `ValueType`: in every
reachable state of a `SparseSet(k)` and for every `v < k`, the call `remove(v)`
returns, `contains(v)` is false afterwards, and `contains(x)` has its earlier
value for every other `x < k`. -/
theorem SparseSet_remove_contains (w k : Nat) (hk : 2 * k < 2 ^ w) (s : SparseSetBase)
    (hr : SparseSet.Reachable w k s) (v : Nat) (hv : v < k) :
    ∃ s1, SparseSet.remove s v = some s1 ∧ SparseSet.contains s1 v = some false ∧
      ∀ x, x < k → x ≠ v →
        ∃ b, SparseSet.contains s x = some b ∧ SparseSet.contains s1 x = some b := by
  have h := hr.inv hk
  obtain ⟨s1, h1, hi1, hmem⟩ := h.remove_spec hv
  refine ⟨s1, h1, ?_, ?_⟩
  · unfold SparseSet.contains
    rw [hi1.containsImpl_eq hv]
    simp [hmem]
  · intro x hx hne
    refine ⟨decide (x ∈ s.range), h.containsImpl_eq hx, ?_⟩
    unfold SparseSet.contains
    rw [hi1.containsImpl_eq hx]
    simp [hmem, hne]

/-- C2 at `SparseSet<uint8_t>(3)` holding 1, 2, 0 in this order: `remove(1)`
moves 0 into the first position. -/
theorem SparseSet_remove_contains_witness :
    2 * 3 < 2 ^ 8 ∧ SparseSet.Reachable 8 3 ⟨3, [2, 0, 1], [1, 2, 0]⟩ ∧ 1 < 3 ∧
    ∃ s1, SparseSet.remove ⟨3, [2, 0, 1], [1, 2, 0]⟩ 1 = some s1 ∧
      SparseSet.contains s1 1 = some false ∧
      ∀ x, x < 3 → x ≠ 1 →
        ∃ b, SparseSet.contains ⟨3, [2, 0, 1], [1, 2, 0]⟩ x = some b ∧
          SparseSet.contains s1 x = some b :=
  have hr : SparseSet.Reachable 8 3 ⟨3, [2, 0, 1], [1, 2, 0]⟩ :=
    ⟨⟨0, [255, 255, 255], [255, 255, 255]⟩,
      [SparseSet.Op.add 1, SparseSet.Op.add 2, SparseSet.Op.add 0], by decide, by decide,
      by decide⟩
  ⟨by decide, hr, by decide, SparseSet_remove_contains 8 3 (by decide) _ hr 1 (by decide)⟩

/-- C4. In every reachable state of a `SparseSet(k)` the iteration range
`dense[0 .. size)` has no duplicates, holds only values below `k`, has `size()`
elements, and a value `x < k` occurs in it exactly when `contains(x)` is true;
so `size()` is the number of `x < k` with `contains(x)`, and
`sparse[dense[i]] = i` for every `i < size`. -/
theorem SparseSet_iteration_enumerates (w k : Nat) (s : SparseSetBase)
    (hr : SparseSet.Reachable w k s) :
    s.range.Nodup ∧ (∀ x ∈ s.range, x < k) ∧ s.range.length = s.size ∧
    (∀ x, x < k → (x ∈ s.range ↔ SparseSet.contains s x = some true)) ∧
    s.size = ((List.range k).filter (fun x => SparseSet.contains s x == some true)).length ∧
    (∀ i, i < s.size → ∃ d, s.dense[i]? = some d ∧ s.sparse[d]? = some i) := by
  rcases hr.inv_or_no_dense with h | ⟨hz, _⟩
  · have hc : ∀ x, x < k → (x ∈ s.range ↔ SparseSet.contains s x = some true) := by
      intro x hx
      unfold SparseSet.contains
      rw [h.containsImpl_eq hx]
      simp
    refine ⟨h.nodup_range, fun x hx => h.lt_of_mem_range hx, h.length_range, hc, ?_, ?_⟩
    · rw [← h.length_range]
      apply List.Perm.length_eq
      rw [List.perm_ext_iff_of_nodup h.nodup_range ((List.nodup_range k).filter _)]
      intro x
      rw [List.mem_filter, List.mem_range]
      constructor
      · intro hx
        have hlt := h.lt_of_mem_range hx
        exact ⟨hlt, by simpa using (hc x hlt).1 hx⟩
      · rintro ⟨hlt, hx⟩
        exact (hc x hlt).2 (by simpa using hx)
    · intro i hi
      obtain ⟨d, hd, _, hsp⟩ := h.link i hi
      exact ⟨d, hd, hsp⟩
  · have hrange : s.range = [] := by
      simp [SparseSetBase.range, hz]
    have hnot : ∀ x, SparseSet.contains s x ≠ some true :=
      fun x => SparseSet.containsImpl_of_size_zero hz x
    rw [hrange, hz]
    refine ⟨List.nodup_nil, fun x hx => absurd hx (List.not_mem_nil x), rfl, ?_, ?_, ?_⟩
    · intro x _
      exact ⟨fun hx => absurd hx (List.not_mem_nil x), fun hx => absurd hx (hnot x)⟩
    · have hfil : (List.range k).filter (fun x => SparseSet.contains s x == some true) = [] := by
        rw [List.filter_eq_nil_iff]
        intro x _ hx
        exact hnot x (by simpa using hx)
      rw [hfil]
      rfl
    · intro i hi
      exact absurd hi (Nat.not_lt_zero i)

/-- C4 at `SparseSet<uint8_t>(3)` after `add(1)`, `add(2)`, `add(0)`,
`remove(1)`. -/
theorem SparseSet_iteration_enumerates_witness :
    SparseSet.Reachable 8 3 ⟨2, [0, 0, 1], [0, 2, 0]⟩ ∧
    (SparseSetBase.range ⟨2, [0, 0, 1], [0, 2, 0]⟩).Nodup ∧
    (∀ x ∈ SparseSetBase.range ⟨2, [0, 0, 1], [0, 2, 0]⟩, x < 3) ∧
    (SparseSetBase.range ⟨2, [0, 0, 1], [0, 2, 0]⟩).length
      = SparseSetBase.size ⟨2, [0, 0, 1], [0, 2, 0]⟩ ∧
    (∀ x, x < 3 → (x ∈ SparseSetBase.range ⟨2, [0, 0, 1], [0, 2, 0]⟩ ↔
      SparseSet.contains ⟨2, [0, 0, 1], [0, 2, 0]⟩ x = some true)) ∧
    SparseSetBase.size ⟨2, [0, 0, 1], [0, 2, 0]⟩ = ((List.range 3).filter
      (fun x => SparseSet.contains ⟨2, [0, 0, 1], [0, 2, 0]⟩ x == some true)).length ∧
    (∀ i, i < SparseSetBase.size ⟨2, [0, 0, 1], [0, 2, 0]⟩ →
      ∃ d, (SparseSetBase.dense ⟨2, [0, 0, 1], [0, 2, 0]⟩)[i]? = some d ∧
        (SparseSetBase.sparse ⟨2, [0, 0, 1], [0, 2, 0]⟩)[d]? = some i) :=
  have hr : SparseSet.Reachable 8 3 ⟨2, [0, 0, 1], [0, 2, 0]⟩ :=
    ⟨⟨0, [255, 255, 255], [255, 255, 255]⟩,
      [SparseSet.Op.add 1, SparseSet.Op.add 2, SparseSet.Op.add 0, SparseSet.Op.remove 1],
      by decide, by decide, by decide⟩
  ⟨hr, SparseSet_iteration_enumerates 8 3 _ hr⟩

/-- C5, as stated, fails for a capacity whose double does not fit `ValueType`:
on the fresh `SparseSet<uint32_t>(2147483649)`, whose buffer has two cells, the
first `add` of the list `[0]` writes `dense[0]` outside the allocation. -/
theorem SparseSet_iteration_is_insertion_order_counterexample :
    SparseSetBase.init 32 2147483649 = some ⟨0, [4294967295, 4294967295], []⟩ ∧
    (∀ v ∈ [0], v < 2147483649) ∧
    SparseSet.run 32 ⟨0, [4294967295, 4294967295], []⟩ ([0].map SparseSet.Op.add) = none := by
  decide

/-- C5, amended. For a capacity `k` with `2 * k` in `ValueType`: starting from
a fresh or just-cleared `SparseSet(k)`, calling `add` on the elements of a list
`L` of values below `k`, in order and with no other call in between, returns,
and the iteration range is then `L` with every repeated occurrence after the
first deleted. -/
theorem SparseSet_iteration_is_insertion_order (w k : Nat) (hk : 2 * k < 2 ^ w)
    (s0 : SparseSetBase)
    (h0 : SparseSetBase.init w k = some s0 ∨
      ∃ s, SparseSet.Reachable w k s ∧ s0 = SparseSet.clear s)
    (L : List Nat) (hL : ∀ v ∈ L, v < k) :
    ∃ s1, SparseSet.run w s0 (L.map SparseSet.Op.add) = some s1 ∧
      s1.range = firstOccurrences L := by
  have hinv : SparseSet.Inv w k s0 ∧ s0.size = 0 := by
    rcases h0 with h0 | ⟨s, hs, rfl⟩
    · refine ⟨SparseSet.inv_init hk h0, ?_⟩
      rw [SparseSetBase.init_eq hk h0]
    · exact ⟨(hs.inv hk).clearImpl_inv, rfl⟩
  obtain ⟨s1, h1, _, hr1⟩ := hinv.1.run_adds L hL
  refine ⟨s1, h1, ?_⟩
  rw [hr1]
  simp [SparseSetBase.range, hinv.2]

/-- C5 at `SparseSet<uint8_t>(4)`, just cleared, with `L = [2, 0, 2, 3, 0]`. -/
theorem SparseSet_iteration_is_insertion_order_witness :
    2 * 4 < 2 ^ 8 ∧
    (∃ s, SparseSet.Reachable 8 4 s ∧
      (⟨0, [255, 0, 255, 255], [1, 255, 255, 255]⟩ : SparseSetBase) = SparseSet.clear s) ∧
    (∀ v ∈ [2, 0, 2, 3, 0], v < 4) ∧
    ∃ s1, SparseSet.run 8 ⟨0, [255, 0, 255, 255], [1, 255, 255, 255]⟩
        ([2, 0, 2, 3, 0].map SparseSet.Op.add) = some s1 ∧
      s1.range = firstOccurrences [2, 0, 2, 3, 0] :=
  have hc : ∃ s, SparseSet.Reachable 8 4 s ∧
      (⟨0, [255, 0, 255, 255], [1, 255, 255, 255]⟩ : SparseSetBase) = SparseSet.clear s :=
    ⟨⟨1, [255, 0, 255, 255], [1, 255, 255, 255]⟩,
      ⟨⟨0, [255, 255, 255, 255], [255, 255, 255, 255]⟩, [SparseSet.Op.add 1],
        by decide, by decide, by decide⟩, by decide⟩
  ⟨by decide, hc, by decide,
    SparseSet_iteration_is_insertion_order 8 4 (by decide) _ (Or.inr hc) [2, 0, 2, 3, 0]
      (by decide)⟩

/-- The deletion of repeated occurrences on an example: the first occurrence
of each value stays, in place. -/
theorem firstOccurrences_example :
    firstOccurrences [2, 0, 2, 3, 0, 2, 1] = [2, 0, 3, 1] := by decide

/-! ## `SparseSet`: the tail swap of `remove`, bounds, initial contents, round trip -/

namespace SparseSet

/-- Below `size` the iteration range and `dense` hold the same values. -/
theorem range_getElem? (s : SparseSetBase) {i : Nat} (hi : i < s.size) :
    s.range[i]? = s.dense[i]? := by
  unfold SparseSetBase.range
  rw [List.getElem?_take, if_pos hi]

/-- Under the invariant a value sits at one position of the range only, the one
that `sparse` names. -/
theorem Inv.position_unique {w k : Nat} {s : SparseSetBase} (h : Inv w k s) {v i idx : Nat}
    (hs : s.sparse[v]? = some idx) (hi : i < s.size) (hd : s.dense[i]? = some v) :
    i = idx := by
  obtain ⟨d, hd', _, hsp⟩ := h.link i hi
  rw [hd] at hd'
  cases hd'
  rw [hs] at hsp
  cases hsp
  rfl

/-- The iteration range after `remove` moved the last element into position
`idx`, in terms of the range before. -/
theorem range_swap_tail (s : SparseSetBase) (idx e : Nat) :
    SparseSetBase.range { size := s.size - 1
                          dense := s.dense.set idx e
                          sparse := s.sparse.set e idx }
      = (s.range.set idx e).take (s.size - 1) := by
  unfold SparseSetBase.range
  simp only
  rw [← List.set_take, List.take_take, Nat.min_eq_left (Nat.sub_le _ _)]

/-- Calls of `contains` with an argument below `k` stay inside the arrays as
well. -/
theorem Inv.call_inv {w k : Nat} {s : SparseSetBase} (h : Inv w k s) {c : Call}
    (hc : Call.Below k c) : ∃ s1, call w s c = some s1 ∧ Inv w k s1 := by
  cases c with
  | add v =>
    obtain ⟨s1, h1, hi, _⟩ := h.addImpl_spec (show v < k from hc)
    exact ⟨s1, h1, hi⟩
  | remove v =>
    obtain ⟨s1, h1, hi, _⟩ := h.remove_spec (show v < k from hc)
    exact ⟨s1, h1, hi⟩
  | contains v =>
    refine ⟨s, ?_, h⟩
    simp only [call, contains, h.containsImpl_eq (show v < k from hc)]
  | clear => exact ⟨_, rfl, h.clearImpl_inv⟩

theorem Inv.calls_inv {w k : Nat} (cs : List Call) :
    ∀ {s : SparseSetBase}, Inv w k s → (∀ c ∈ cs, Call.Below k c) →
      ∃ s1, calls w s cs = some s1 ∧ Inv w k s1 := by
  induction cs with
  | nil => intro s h _; exact ⟨s, rfl, h⟩
  | cons c cs ih =>
    intro s h hcs
    obtain ⟨s1, h1, hi⟩ := h.call_inv (hcs c (List.mem_cons_self _ _))
    obtain ⟨s2, h2, hi2⟩ := ih hi (fun o ho => hcs o (List.mem_cons_of_mem _ ho))
    refine ⟨s2, ?_, hi2⟩
    simp only [calls, h1]
    exact h2

end SparseSet

/-- The state that `remove(1)` leaves on the set holding 1, 2, 0. -/
theorem SparseSet.remove_example :
    SparseSet.remove ⟨3, [2, 0, 1], [1, 2, 0]⟩ 1 = some ⟨2, [0, 0, 1], [0, 2, 0]⟩ := by
  decide

/-- C14, as stated, fails for a capacity whose double does not fit
`ValueType`: on the fresh `SparseSet<uint32_t>(2147483649)`, whose buffer has
two cells, the single call `contains(2)` reads `sparse[2]` outside the
allocation, and the single call `add(0)` writes `dense[0]` outside it. -/
theorem SparseSet_never_out_of_bounds_counterexample :
    SparseSetBase.init 32 2147483649 = some ⟨0, [4294967295, 4294967295], []⟩ ∧
    (∀ c ∈ [SparseSet.Call.contains 2], SparseSet.Call.Below 2147483649 c) ∧
    SparseSet.calls 32 ⟨0, [4294967295, 4294967295], []⟩ ([SparseSet.Call.contains 2].take 1) = none ∧
    (∀ c ∈ [SparseSet.Call.add 0], SparseSet.Call.Below 2147483649 c) ∧
    SparseSet.calls 32 ⟨0, [4294967295, 4294967295], []⟩ ([SparseSet.Call.add 0].take 1) = none := by
  decide

/-- C14, amended. For a `SparseSet` constructed with a capacity `k` with
`2 * k` in `ValueType`, and every sequence of `add`, `remove`, `contains` and
`clear` calls with arguments below `k`: after every call of the sequence the
run is still inside the arrays (no access met an index outside `sparse` or
`dense`), both arrays have `k` cells and `size ≤ k`; and whenever a value below
`k` is not contained, so that `add` would write `dense[size]`, `size < k`. -/
theorem SparseSet_never_out_of_bounds (w k : Nat) (hk : 2 * k < 2 ^ w)
    (s0 : SparseSetBase)
    (h0 : SparseSetBase.init w k = some s0) (cs : List SparseSet.Call)
    (hcs : ∀ c ∈ cs, SparseSet.Call.Below k c) (n : Nat) :
    ∃ s, SparseSet.calls w s0 (cs.take n) = some s ∧ s.size ≤ k ∧
      s.sparse.length = k ∧ s.dense.length = k ∧
      ∀ v, v < k → SparseSet.contains s v = some false → s.size < k := by
  have hpre : ∀ c ∈ cs.take n, SparseSet.Call.Below k c :=
    fun c hc => hcs c (List.mem_of_mem_take hc)
  obtain ⟨s, hs, hi⟩ := (SparseSet.inv_init hk h0).calls_inv (cs.take n) hpre
  refine ⟨s, hs, hi.size_le, hi.sparse_len, hi.dense_len, ?_⟩
  intro v hv hout
  apply hi.size_lt hv
  unfold SparseSet.contains at hout
  rw [hi.containsImpl_eq hv] at hout
  simpa using hout

/-- C14 at `SparseSet<uint8_t>(2)`: five calls that fill the set, after the
fourth of them. -/
theorem SparseSet_never_out_of_bounds_witness :
    2 * 2 < 2 ^ 8 ∧
    SparseSetBase.init 8 2 = some ⟨0, [255, 255], [255, 255]⟩ ∧
    (∀ c ∈ [SparseSet.Call.add 1, SparseSet.Call.contains 0, SparseSet.Call.add 0,
        SparseSet.Call.add 1, SparseSet.Call.remove 0], SparseSet.Call.Below 2 c) ∧
    ∃ s, SparseSet.calls 8 ⟨0, [255, 255], [255, 255]⟩
        ([SparseSet.Call.add 1, SparseSet.Call.contains 0, SparseSet.Call.add 0,
          SparseSet.Call.add 1, SparseSet.Call.remove 0].take 4) = some s ∧
      s.size ≤ 2 ∧ s.sparse.length = 2 ∧ s.dense.length = 2 ∧
      ∀ v, v < 2 → SparseSet.contains s v = some false → s.size < 2 :=
  ⟨by decide, by decide, by decide,
    SparseSet_never_out_of_bounds 8 2 (by decide) _ (by decide) _ (by decide) 4⟩

/-- An argument that is not below `k` does leave the arrays: the branch `none`
of the embedding is taken. -/
theorem SparseSet.call_out_of_bounds :
    SparseSet.call 8 ⟨0, [255, 255], [255, 255]⟩ (SparseSet.Call.add 2) = none ∧
    SparseSet.call 8 ⟨0, [255, 255], [255, 255]⟩ (SparseSet.Call.contains 2) = none := by
  decide

namespace SparseSet

/-- Two states that satisfy the invariant and show the same iteration range
answer one call alike: both return, and the ranges are equal again. -/
theorem Inv.step_same_range {w k : Nat} {s t : SparseSetBase} (hs : Inv w k s)
    (ht : Inv w k t) (hrange : s.range = t.range) {op : Op} (hop : Op.Below k op) :
    ∃ s1 t1, SparseSet.step w s op = some s1 ∧ SparseSet.step w t op = some t1 ∧
      Inv w k s1 ∧ Inv w k t1 ∧ s1.range = t1.range := by
  have hsize : s.size = t.size := by
    rw [← hs.length_range, ← ht.length_range, hrange]
  cases op with
  | add v =>
    have hv : v < k := hop
    obtain ⟨s1, h1, hi1, hr1⟩ := hs.addImpl_spec (w := w) hv
    obtain ⟨t1, h2, hi2, hr2⟩ := ht.addImpl_spec (w := w) hv
    exact ⟨s1, t1, h1, h2, hi1, hi2, by rw [hr1, hr2, hrange]⟩
  | clear =>
    exact ⟨_, _, rfl, rfl, hs.clearImpl_inv, ht.clearImpl_inv, rfl⟩
  | remove v =>
    have hv : v < k := hop
    by_cases hmem : v ∈ s.range
    · have hmem' : v ∈ t.range := hrange ▸ hmem
      obtain ⟨i, e, hsi, hlt, hd, he, hek, _, hrem⟩ := hs.remove_of_mem hv hmem
      obtain ⟨i', e', hsi', hlt', hd', he', hek', _, hrem'⟩ := ht.remove_of_mem hv hmem'
      have hii : i = i' := by
        apply ht.position_unique hsi' (by omega)
        rw [← range_getElem? t (by omega), ← hrange, range_getElem? s hlt]
        exact hd
      have hee : e = e' := by
        have h1 : s.dense[s.size - 1]? = t.dense[t.size - 1]? := by
          rw [← range_getElem? s (by omega), ← range_getElem? t (by omega), hrange, hsize]
        rw [he, he'] at h1
        exact Option.some.inj h1
      refine ⟨_, _, hrem, hrem', hs.swap_tail hsi hlt he hek, ht.swap_tail hsi' hlt' he' hek', ?_⟩
      rw [range_swap_tail, range_swap_tail, hrange, hsize, hii, hee]
    · have hmem' : v ∉ t.range := hrange ▸ hmem
      exact ⟨s, t, hs.remove_of_not_mem hv hmem, ht.remove_of_not_mem hv hmem', hs, ht, hrange⟩

theorem Inv.run_same_range {w k : Nat} (ops : List Op) :
    ∀ {s t : SparseSetBase}, Inv w k s → Inv w k t → s.range = t.range →
      (∀ op ∈ ops, Op.Below k op) →
      ∃ s1 t1, SparseSet.run w s ops = some s1 ∧ SparseSet.run w t ops = some t1 ∧
        Inv w k s1 ∧ Inv w k t1 ∧ s1.range = t1.range := by
  induction ops with
  | nil => intro s t hs ht hr _; exact ⟨s, t, rfl, rfl, hs, ht, hr⟩
  | cons op ops ih =>
    intro s t hs ht hr hops
    obtain ⟨s1, t1, h1, h2, hi1, hi2, hr1⟩ :=
      hs.step_same_range ht hr (hops op (List.mem_cons_self _ _))
    obtain ⟨s2, t2, h3, h4, hi3, hi4, hr2⟩ :=
      ih hi1 hi2 hr1 (fun o ho => hops o (List.mem_cons_of_mem _ ho))
    refine ⟨s2, t2, ?_, ?_, hi3, hi4, hr2⟩
    · simp only [SparseSet.run, h1]; exact h3
    · simp only [SparseSet.run, h2]; exact h4

end SparseSet

/-- C15, as stated, fails for a signed `ValueType`.  On `SparseSet<int32_t>(2)`
and the empty sequence of calls: with the cells as the constructor fills them
`contains(0)` is false; with `sparse[0] = -1` and `sparse[1] = 0` the test
`index < _size` passes at size 0, `_dense[-1]` is the cell `sparse[1]`, and
`contains(0)` is true on the empty set. -/
theorem SparseSet_independent_of_initial_contents_counterexample :
    SignedSparseSet.init 32 2
      = some ⟨2, 0, [2147483647, 2147483647, 2147483647, 2147483647]⟩ ∧
    SignedSparseSet.containsImpl ⟨2, 0, [2147483647, 2147483647, 2147483647, 2147483647]⟩ 0
      = some false ∧
    SignedSparseSet.containsImpl ⟨2, 0, [-1, 0, 2147483647, 2147483647]⟩ 0 = some true := by
  decide

/-- C15, amended. For an unsigned `ValueType`: two states of a `SparseSet` of
the same capacity `k` with `size = 0` and any contents of the `k` cells of
`sparse` and of `dense` answer the same sequence of `add`, `remove` and `clear`
calls with arguments below `k` alike: both runs return, with the same
`size()`, the same iteration range and the same `contains(x)` for every
`x < k`. -/
theorem SparseSet_independent_of_initial_contents (w k : Nat) (s t : SparseSetBase)
    (hk : k < 2 ^ w)
    (hs : s.size = 0 ∧ s.sparse.length = k ∧ s.dense.length = k)
    (ht : t.size = 0 ∧ t.sparse.length = k ∧ t.dense.length = k)
    (ops : List SparseSet.Op) (hops : ∀ op ∈ ops, SparseSet.Op.Below k op) :
    ∃ s1 t1, SparseSet.run w s ops = some s1 ∧ SparseSet.run w t ops = some t1 ∧
      s1.size = t1.size ∧ s1.range = t1.range ∧
      ∀ x, x < k → ∃ b, SparseSet.contains s1 x = some b ∧ SparseSet.contains t1 x = some b := by
  have his : SparseSet.Inv w k s :=
    ⟨hk, hs.2.1, hs.2.2, by rw [hs.1]; exact Nat.zero_le _,
      fun i hi => absurd hi (by rw [hs.1]; exact Nat.not_lt_zero i)⟩
  have hit : SparseSet.Inv w k t :=
    ⟨hk, ht.2.1, ht.2.2, by rw [ht.1]; exact Nat.zero_le _,
      fun i hi => absurd hi (by rw [ht.1]; exact Nat.not_lt_zero i)⟩
  have hr0 : s.range = t.range := by
    simp [SparseSetBase.range, hs.1, ht.1]
  obtain ⟨s1, t1, h1, h2, hi1, hi2, hr⟩ := his.run_same_range ops hit hr0 hops
  refine ⟨s1, t1, h1, h2, ?_, hr, ?_⟩
  · rw [← hi1.length_range, ← hi2.length_range, hr]
  · intro x hx
    refine ⟨decide (x ∈ s1.range), hi1.containsImpl_eq hx, ?_⟩
    unfold SparseSet.contains
    rw [hi2.containsImpl_eq hx]
    simp [hr]

/-- C15 at capacity 3 over `uint8_t`: the arrays as the constructor fills them
against arrays holding other values, some of them not below 3. -/
theorem SparseSet_independent_of_initial_contents_witness :
    3 < 2 ^ 8 ∧
    (SparseSetBase.size ⟨0, [255, 255, 255], [255, 255, 255]⟩ = 0 ∧
      (SparseSetBase.sparse ⟨0, [255, 255, 255], [255, 255, 255]⟩).length = 3 ∧
      (SparseSetBase.dense ⟨0, [255, 255, 255], [255, 255, 255]⟩).length = 3) ∧
    (SparseSetBase.size ⟨0, [0, 0, 7], [2, 2, 1]⟩ = 0 ∧
      (SparseSetBase.sparse ⟨0, [0, 0, 7], [2, 2, 1]⟩).length = 3 ∧
      (SparseSetBase.dense ⟨0, [0, 0, 7], [2, 2, 1]⟩).length = 3) ∧
    (∀ op ∈ [SparseSet.Op.add 2, SparseSet.Op.add 0, SparseSet.Op.remove 2,
      SparseSet.Op.add 1], SparseSet.Op.Below 3 op) ∧
    ∃ s1 t1,
      SparseSet.run 8 ⟨0, [255, 255, 255], [255, 255, 255]⟩
        [SparseSet.Op.add 2, SparseSet.Op.add 0, SparseSet.Op.remove 2, SparseSet.Op.add 1]
        = some s1 ∧
      SparseSet.run 8 ⟨0, [0, 0, 7], [2, 2, 1]⟩
        [SparseSet.Op.add 2, SparseSet.Op.add 0, SparseSet.Op.remove 2, SparseSet.Op.add 1]
        = some t1 ∧
      s1.size = t1.size ∧ s1.range = t1.range ∧
      ∀ x, x < 3 → ∃ b, SparseSet.contains s1 x = some b ∧ SparseSet.contains t1 x = some b :=
  ⟨by decide, by decide, by decide, by decide,
    SparseSet_independent_of_initial_contents 8 3 _ _ (by decide) (by decide) (by decide) _
      (by decide)⟩

/-- The two runs of the example end in different arrays with the same range. -/
theorem SparseSet.run_example_initial_contents :
    SparseSet.run 8 ⟨0, [255, 255, 255], [255, 255, 255]⟩
      [SparseSet.Op.add 2, SparseSet.Op.add 0, SparseSet.Op.remove 2, SparseSet.Op.add 1]
      = some ⟨2, [0, 1, 0], [0, 1, 255]⟩ ∧
    SparseSet.run 8 ⟨0, [0, 0, 7], [2, 2, 1]⟩
      [SparseSet.Op.add 2, SparseSet.Op.add 0, SparseSet.Op.remove 2, SparseSet.Op.add 1]
      = some ⟨2, [0, 1, 0], [0, 1, 1]⟩ := by
  decide

/-- C16, as stated, fails for a capacity whose double does not fit
`ValueType`: in the state that the constructor of
`SparseSet<uint32_t>(2147483649)` returns, 1 is not contained and `add(1)`
writes `dense[0]` outside the allocation. -/
theorem SparseSet_add_remove_round_trip_counterexample :
    SparseSetBase.init 32 2147483649 = some ⟨0, [4294967295, 4294967295], []⟩ ∧
    SparseSet.Reachable 32 2147483649 ⟨0, [4294967295, 4294967295], []⟩ ∧
    1 < 2147483649 ∧
    SparseSet.contains ⟨0, [4294967295, 4294967295], []⟩ 1 = some false ∧
    SparseSet.add 32 ⟨0, [4294967295, 4294967295], []⟩ 1 = none :=
  ⟨by decide, ⟨⟨0, [4294967295, 4294967295], []⟩, [], by decide, by decide, rfl⟩, by decide, by decide, by decide⟩

/-- C16, amended. For a capacity `k` with `2 * k` in `ValueType`: in a
reachable state of a `SparseSet(k)` and for `v < k` that is not contained,
`add(v)` followed by `remove(v)` returns and restores `size()`, the iteration
range and `contains(x)` for every `x < k`. -/
theorem SparseSet_add_remove_round_trip (w k : Nat) (hk : 2 * k < 2 ^ w)
    (s : SparseSetBase)
    (hr : SparseSet.Reachable w k s) (v : Nat) (hv : v < k)
    (hout : SparseSet.contains s v = some false) :
    ∃ s1 s2, SparseSet.add w s v = some s1 ∧ SparseSet.remove s1 v = some s2 ∧
      s2.size = s.size ∧ s2.range = s.range ∧
      ∀ x, x < k → ∃ b, SparseSet.contains s x = some b ∧ SparseSet.contains s2 x = some b := by
  have h := hr.inv hk
  have hmem : v ∉ s.range := by
    unfold SparseSet.contains at hout
    rw [h.containsImpl_eq hv] at hout
    simpa using hout
  have hvl : v < s.sparse.length := by rw [h.sparse_len]; exact hv
  have hsl : s.size < s.dense.length := by rw [h.dense_len]; exact h.size_lt hv hmem
  obtain ⟨s1, hs1eq⟩ : ∃ s1 : SparseSetBase,
      s1 = { size := s.size + 1
             sparse := s.sparse.set v s.size
             dense := s.dense.set s.size v } := ⟨_, rfl⟩
  have hadd : SparseSet.add w s v = some s1 := by
    rw [hs1eq]; exact h.addImpl_of_not_mem hv hmem
  have hi1 : SparseSet.Inv w k s1 := by rw [hs1eq]; exact h.append hv hmem
  have hr1 : s1.range = s.range ++ [v] := by rw [hs1eq]; exact h.range_append hv hmem
  have hsz1 : s1.size = s.size + 1 := by rw [hs1eq]
  have hsp1 : s1.sparse[v]? = some s.size := by
    rw [hs1eq]; exact List.getElem?_set_self hvl
  have hde1 : s1.dense[s1.size - 1]? = some v := by
    rw [hs1eq]
    simp only [Nat.add_sub_cancel]
    exact List.getElem?_set_self hsl
  have hmem1 : v ∈ s1.range := by
    rw [hr1]
    exact List.mem_append_right _ (List.mem_singleton_self v)
  obtain ⟨idx, e, hs1, hlt1, hd1, he1, hek1, _, hrem⟩ := hi1.remove_of_mem hv hmem1
  have hidx : s.size = idx := by
    rw [hsp1] at hs1
    exact Option.some.inj hs1
  have he : v = e := by
    rw [hde1] at he1
    exact Option.some.inj he1
  subst hidx
  subst he
  have hi2 := hi1.swap_tail hs1 hlt1 he1 hek1
  have hr2 : SparseSetBase.range
      { size := s1.size - 1
        dense := s1.dense.set s.size v
        sparse := s1.sparse.set v s.size } = s.range := by
    rw [SparseSet.range_swap_tail s1 s.size v, hr1, hsz1, Nat.add_sub_cancel, List.set_take,
      ← h.length_range, List.take_left, List.set_eq_of_length_le (Nat.le_refl _)]
  refine ⟨s1, _, hadd, hrem, ?_, hr2, ?_⟩
  · simp only [hsz1, Nat.add_sub_cancel]
  · intro x hx
    refine ⟨decide (x ∈ s.range), h.containsImpl_eq hx, ?_⟩
    unfold SparseSet.contains
    rw [hi2.containsImpl_eq hx]
    simp [hr2]

/-- C16 at `SparseSet<uint8_t>(3)` holding the value 1: `add(2)`, then
`remove(2)`. -/
theorem SparseSet_add_remove_round_trip_witness :
    2 * 3 < 2 ^ 8 ∧ SparseSet.Reachable 8 3 ⟨1, [255, 0, 255], [1, 255, 255]⟩ ∧ 2 < 3 ∧
    SparseSet.contains ⟨1, [255, 0, 255], [1, 255, 255]⟩ 2 = some false ∧
    ∃ s1 s2, SparseSet.add 8 ⟨1, [255, 0, 255], [1, 255, 255]⟩ 2 = some s1 ∧
      SparseSet.remove s1 2 = some s2 ∧
      s2.size = SparseSetBase.size ⟨1, [255, 0, 255], [1, 255, 255]⟩ ∧
      s2.range = SparseSetBase.range ⟨1, [255, 0, 255], [1, 255, 255]⟩ ∧
      ∀ x, x < 3 →
        ∃ b, SparseSet.contains ⟨1, [255, 0, 255], [1, 255, 255]⟩ x = some b ∧
          SparseSet.contains s2 x = some b :=
  have hr : SparseSet.Reachable 8 3 ⟨1, [255, 0, 255], [1, 255, 255]⟩ :=
    ⟨⟨0, [255, 255, 255], [255, 255, 255]⟩, [SparseSet.Op.add 1], by decide, by decide,
      by decide⟩
  ⟨by decide, hr, by decide, by decide,
    SparseSet_add_remove_round_trip 8 3 (by decide) _ hr 2 (by decide) (by decide)⟩

/-- The round trip does not restore the arrays themselves: the cells that
`add(2)` wrote keep their values. -/
theorem SparseSet.round_trip_example :
    (SparseSet.add 8 ⟨1, [255, 0, 255], [1, 255, 255]⟩ 2).bind (fun s1 => SparseSet.remove s1 2)
      = some ⟨1, [255, 0, 1], [1, 2, 255]⟩ := by
  decide

/-! ## `InsertOnlySparseSet` -/

namespace InsertOnlySparseSet

/-- The call `clearImpl` while `_threshold` is below the maximum of
`ValueType`. -/
theorem clearImpl_of_lt {w : Nat} {s : InsertOnlySparseSet} (h : s.threshold < maxValue w) :
    clearImpl w s = { base := { s.base with size := 0 }, threshold := s.threshold + 1 } := by
  have hne : s.threshold ≠ maxValue w := Nat.ne_of_lt h
  have hmod : (s.threshold + 1) % 2 ^ w = s.threshold + 1 := by
    apply Nat.mod_eq_of_lt
    unfold maxValue at h
    omega
  simp [clearImpl, hne, hmod]

/-- The state after `n` calls of `clearImpl` in a row that do not reach the
maximum of `ValueType` on the way: only `_size` and `_threshold` change. -/
theorem run_replicate_clearImpl {w : Nat} (n : Nat) :
    ∀ s : InsertOnlySparseSet, s.threshold + (n + 1) ≤ maxValue w →
      run w s (List.replicate (n + 1) Op.clearImpl) =
        some { base := { s.base with size := 0 }, threshold := s.threshold + (n + 1) } := by
  have hcons : ∀ (s : InsertOnlySparseSet) (ops : List Op),
      run w s (Op.clearImpl :: ops) = run w (clearImpl w s) ops := fun _ _ => rfl
  induction n with
  | zero =>
    intro s h
    rw [List.replicate_succ, hcons, clearImpl_of_lt (by omega)]
    rfl
  | succ n ih =>
    intro s h
    rw [List.replicate_succ, hcons, clearImpl_of_lt (by omega), ih _ (by simp only; omega)]
    simp only [Option.some.injEq, InsertOnlySparseSet.mk.injEq]
    exact ⟨trivial, by omega⟩

theorem run_cons (w : Nat) (s : InsertOnlySparseSet) (op : Op) (ops : List Op) :
    run w s (op :: ops) = (step w s op).bind (fun s1 => run w s1 ops) := by
  simp only [run]
  cases step w s op <;> rfl

end InsertOnlySparseSet

/-- The cells that were never written hold the maximum of `ValueType`, and so
does `_threshold` after as many calls of `clearImpl` as that maximum: for every
width `w ≥ 1` and every capacity `k` with `2 * k` in `ValueType`,
`containsImpl(x)` is then true for every `x < k` although the set was just
cleared. -/
theorem InsertOnlySparseSet.clearImpl_reaches_sentinel (w k : Nat) (hw : 0 < w)
    (hk : 2 * k < 2 ^ w) :
    ∃ s0 s, InsertOnlySparseSet.init w k = some s0 ∧
      InsertOnlySparseSet.run w s0 (List.replicate (maxValue w) Op.clearImpl) = some s ∧
      s.base.size = 0 ∧ ∀ x, x < k → InsertOnlySparseSet.containsImpl s x = some true := by
  have hpos : 0 < maxValue w := by
    have : 2 ≤ 2 ^ w := by
      calc 2 = 2 ^ 1 := rfl
        _ ≤ 2 ^ w := Nat.pow_le_pow_right (by decide) hw
    unfold maxValue
    omega
  have hs0 := SparseSetBase.init_of_fits hk
  obtain ⟨n, hn⟩ : ∃ n, maxValue w = n + 1 := ⟨maxValue w - 1, by omega⟩
  refine ⟨⟨⟨0, List.replicate k (maxValue w), List.replicate k (maxValue w)⟩, 0⟩,
    ⟨⟨0, List.replicate k (maxValue w), List.replicate k (maxValue w)⟩, maxValue w⟩,
    by simp only [InsertOnlySparseSet.init, hs0], ?_, rfl, ?_⟩
  · have hrun := InsertOnlySparseSet.run_replicate_clearImpl (w := w) n
      ⟨⟨0, List.replicate k (maxValue w), List.replicate k (maxValue w)⟩, 0⟩
      (by simp only; omega)
    rw [← hn, Nat.zero_add] at hrun
    exact hrun
  · intro x hx
    simp [InsertOnlySparseSet.containsImpl, List.getElem?_replicate, hx]

/-- C6, evaluated on `InsertOnlySparseSet<uint8_t>(2)`: after construction and
255 calls of `clearImpl` the size is 0 and `_threshold` is 255, the value every
cell of `sparse` has held since construction, so `containsImpl(0)` and
`containsImpl(1)` are true immediately after a `clearImpl`. -/
theorem InsertOnlySparseSet_clearImpl_not_empty_at_sentinel :
    InsertOnlySparseSet.init 8 2 = some ⟨⟨0, [255, 255], [255, 255]⟩, 0⟩ ∧
    InsertOnlySparseSet.run 8 ⟨⟨0, [255, 255], [255, 255]⟩, 0⟩
      (List.replicate 255 InsertOnlySparseSet.Op.clearImpl)
        = some ⟨⟨0, [255, 255], [255, 255]⟩, 255⟩ ∧
    InsertOnlySparseSet.containsImpl ⟨⟨0, [255, 255], [255, 255]⟩, 255⟩ 0 = some true ∧
    InsertOnlySparseSet.containsImpl ⟨⟨0, [255, 255], [255, 255]⟩, 255⟩ 1 = some true :=
  ⟨by decide,
   InsertOnlySparseSet.run_replicate_clearImpl 254 ⟨⟨0, [255, 255], [255, 255]⟩, 0⟩ (by decide),
   by decide, by decide⟩

/-- The test `!contains(value)` of `addImpl` compares positions, and `addImpl`
stores `_threshold` where a position is expected: on
`InsertOnlySparseSet<uint8_t>(3)` the calls `addImpl(0)`, `addImpl(1)`,
`addImpl(1)` leave the range `0, 1, 1`. -/
theorem InsertOnlySparseSet.addImpl_appends_twice :
    InsertOnlySparseSet.run 8 ⟨⟨0, [255, 255, 255], [255, 255, 255]⟩, 0⟩
      [Op.addImpl 0, Op.addImpl 1, Op.addImpl 1]
        = some ⟨⟨3, [0, 0, 255], [0, 1, 1]⟩, 0⟩ ∧
    SparseSetBase.range ⟨3, [0, 0, 255], [0, 1, 1]⟩ = [0, 1, 1] := by
  decide

/-- C7, evaluated on `InsertOnlySparseSet<uint8_t>(2)`: after construction,
`addImpl(0)` and 255 calls of `clearImpl`, nothing was added since the last
`clearImpl` and the range `dense[0 .. size)` is empty, but `containsImpl(1)` is
true, for a value that was never passed to `addImpl`. -/
theorem InsertOnlySparseSet_containsImpl_outside_range :
    InsertOnlySparseSet.init 8 2 = some ⟨⟨0, [255, 255], [255, 255]⟩, 0⟩ ∧
    InsertOnlySparseSet.run 8 ⟨⟨0, [255, 255], [255, 255]⟩, 0⟩
      (InsertOnlySparseSet.Op.addImpl 0 ::
        List.replicate 255 InsertOnlySparseSet.Op.clearImpl)
        = some ⟨⟨0, [0, 255], [0, 255]⟩, 255⟩ ∧
    SparseSetBase.range ⟨0, [0, 255], [0, 255]⟩ = [] ∧
    InsertOnlySparseSet.containsImpl ⟨⟨0, [0, 255], [0, 255]⟩, 255⟩ 1 = some true := by
  refine ⟨by decide, ?_, by decide, by decide⟩
  have hstep : InsertOnlySparseSet.step 8 ⟨⟨0, [255, 255], [255, 255]⟩, 0⟩
      (InsertOnlySparseSet.Op.addImpl 0) = some ⟨⟨1, [0, 255], [0, 255]⟩, 0⟩ := by decide
  have hrun : InsertOnlySparseSet.run 8 ⟨⟨1, [0, 255], [0, 255]⟩, 0⟩
      (List.replicate 255 InsertOnlySparseSet.Op.clearImpl)
        = some ⟨⟨0, [0, 255], [0, 255]⟩, 255⟩ :=
    InsertOnlySparseSet.run_replicate_clearImpl 254 ⟨⟨1, [0, 255], [0, 255]⟩, 0⟩ (by decide)
  rw [InsertOnlySparseSet.run_cons, hstep, Option.some_bind]
  exact hrun

/-- C9, evaluated on `InsertOnlySparseSet<uint8_t>(2)`: the public calls
`add(0)`, `add(1)` store positions in `sparse`; then the public `contains(1)`
is true while `containsImpl(1)` is false, the public `add(1)` on the state
after `add(0)` differs from `addImpl(1)`, and the public `clear()` leaves
`_threshold` at 0 while `clearImpl` moves it to 1. -/
theorem InsertOnlySparseSet_public_interface_is_SparseSet :
    InsertOnlySparseSet.init 8 2 = some ⟨⟨0, [255, 255], [255, 255]⟩, 0⟩ ∧
    InsertOnlySparseSet.add 8 ⟨⟨0, [255, 255], [255, 255]⟩, 0⟩ 0
      = some ⟨⟨1, [0, 255], [0, 255]⟩, 0⟩ ∧
    InsertOnlySparseSet.add 8 ⟨⟨1, [0, 255], [0, 255]⟩, 0⟩ 1
      = some ⟨⟨2, [0, 1], [0, 1]⟩, 0⟩ ∧
    InsertOnlySparseSet.addImpl 8 ⟨⟨1, [0, 255], [0, 255]⟩, 0⟩ 1
      = some ⟨⟨2, [0, 0], [0, 1]⟩, 0⟩ ∧
    InsertOnlySparseSet.contains ⟨⟨2, [0, 1], [0, 1]⟩, 0⟩ 1 = some true ∧
    InsertOnlySparseSet.containsImpl ⟨⟨2, [0, 1], [0, 1]⟩, 0⟩ 1 = some false ∧
    (InsertOnlySparseSet.clear ⟨⟨2, [0, 1], [0, 1]⟩, 0⟩).threshold = 0 ∧
    (InsertOnlySparseSet.clearImpl 8 ⟨⟨2, [0, 1], [0, 1]⟩, 0⟩).threshold = 1 := by
  decide

end datastructure

namespace kahypar

/-! ## `main`: the self-check of the fixed vertices -/

theorem firstMisplacedFixedVertex_eq_none {H : Type} (X : Externals H) (hypergraph : H) :
    ∀ l : List HypernodeID,
      firstMisplacedFixedVertex X hypergraph l = none ↔
        ∀ hn ∈ l, X.partID hypergraph hn = X.fixedVertexPartID hypergraph hn := by
  intro l
  induction l with
  | nil => simp [firstMisplacedFixedVertex]
  | cons hn rest ih =>
    by_cases h : X.partID hypergraph hn = X.fixedVertexPartID hypergraph hn
    · simp [firstMisplacedFixedVertex, h, ih]
    · simp [firstMisplacedFixedVertex, h]

/-- Nothing is written before `partitioner.partition` returns. -/
theorem mainThroughPartition_no_write {H : Type} (X : Externals H) (argv : List String)
    {t : List (Event H)} {hypergraph : H} {context : Context}
    (hp : mainThroughPartition X argv = Sum.inr (t, hypergraph, context)) :
    t.any Event.isWritePartitionFile = false := by
  unfold mainThroughPartition at hp
  simp only at hp
  split at hp
  · exact absurd hp (by simp)
  · simp only [Sum.inr.injEq, Prod.mk.injEq] at hp
    rw [← hp.1]
    split <;> simp [Event.isWritePartitionFile]

/-- C10. Whatever the partitioner leaves in the hypergraph: if some fixed
vertex is not in its fixed block, `main` ends with a nonzero status and its
trace has no call of `writePartitionFile`; and if `main` returns 0 or calls
`writePartitionFile`, every fixed vertex is in its fixed block. -/
theorem main_fixed_vertex_self_check {H : Type} (X : Externals H) (argv : List String)
    (t : List (Event H)) (hypergraph : H) (context : Context)
    (hp : mainThroughPartition X argv = Sum.inr (t, hypergraph, context)) :
    ((∃ hn ∈ X.fixedVertices hypergraph,
        X.partID hypergraph hn ≠ X.fixedVertexPartID hypergraph hn) →
      (main X argv).status ≠ 0 ∧
        (main X argv).trace.any Event.isWritePartitionFile = false) ∧
    (((main X argv).status = 0 ∨
        (main X argv).trace.any Event.isWritePartitionFile = true) →
      ∀ hn ∈ X.fixedVertices hypergraph,
        X.partID hypergraph hn = X.fixedVertexPartID hypergraph hn) := by
  have hnw := mainThroughPartition_no_write X argv hp
  have hmain : main X argv = mainAfterPartition X t hypergraph context := by
    simp only [main, hp]
  rw [hmain]
  have hnone := firstMisplacedFixedVertex_eq_none X hypergraph (X.fixedVertices hypergraph)
  cases hf : firstMisplacedFixedVertex X hypergraph (X.fixedVertices hypergraph) with
  | none =>
    have hall := hnone.1 hf
    refine ⟨?_, fun _ => hall⟩
    rintro ⟨hn, hmem, hne⟩
    exact absurd (hall hn hmem) hne
  | some hn =>
    have hout : mainAfterPartition X t hypergraph context =
        { trace := t ++ [Event.logMismatch hn (X.fixedVertexPartID hypergraph hn)
            (X.partID hypergraph hn)]
          status := -1 } := by
      simp only [mainAfterPartition, hf]
    rw [hout]
    have hno : (t ++ [Event.logMismatch hn (X.fixedVertexPartID hypergraph hn)
        (X.partID hypergraph hn)]).any Event.isWritePartitionFile = false := by
      rw [List.any_append, hnw]
      rfl
    have hst : (-1 : Int) ≠ 0 := by decide
    refine ⟨fun _ => ⟨hst, hno⟩, ?_⟩
    rintro (h | h)
    · exact absurd h hst
    · rw [hno] at h
      exact absurd h (by decide)

/-- C10 on the sample run: hypernode 1 is fixed to block 0 and the partitioner
leaves it in block 1. -/
theorem main_fixed_vertex_self_check_witness :
    mainThroughPartition sampleExternals [] =
      Sum.inr ([Event.setSeed 7, Event.createHypergraphFromFile "in.hgr" 2,
        Event.partition [-1, -1, -1]
          { sampleContext with preprocessing := { enable_min_hash_sparsifier := false } }],
        [0, 1, 1],
        { sampleContext with preprocessing := { enable_min_hash_sparsifier := false } }) ∧
    ((∃ hn ∈ sampleExternals.fixedVertices [0, 1, 1],
        sampleExternals.partID [0, 1, 1] hn ≠ sampleExternals.fixedVertexPartID [0, 1, 1] hn) →
      (main sampleExternals []).status ≠ 0 ∧
        (main sampleExternals []).trace.any Event.isWritePartitionFile = false) ∧
    (((main sampleExternals []).status = 0 ∨
        (main sampleExternals []).trace.any Event.isWritePartitionFile = true) →
      ∀ hn ∈ sampleExternals.fixedVertices [0, 1, 1],
        sampleExternals.partID [0, 1, 1] hn = sampleExternals.fixedVertexPartID [0, 1, 1] hn) :=
  ⟨rfl, main_fixed_vertex_self_check sampleExternals [] _ _ _ rfl⟩

/-- The sample run ends at the self-check: one fixed vertex is misplaced, the
status is -1 and nothing is written. -/
theorem main_sample_run :
    (∃ hn ∈ sampleExternals.fixedVertices [0, 1, 1],
      sampleExternals.partID [0, 1, 1] hn ≠ sampleExternals.fixedVertexPartID [0, 1, 1] hn) ∧
    (main sampleExternals []).status = -1 ∧
    (main sampleExternals []).trace.any Event.isWritePartitionFile = false :=
  ⟨⟨1, by decide, by decide⟩, rfl, rfl⟩

/-! ## `main`: the V-cycle check and the sparsifier switch -/

/-- The run of `main` when the V-cycle check fires: a line on `cerr` after the
optional banner, and `exit(-1)`. -/
theorem mainThroughPartition_of_rejected {H : Type} (X : Externals H) (argv : List String)
    (hv : (X.sanityCheck (X.processCommandLineInput argv)).partition.global_search_iterations ≠ 0)
    (hm : (X.sanityCheck (X.processCommandLineInput argv)).partition.mode
      = Mode.recursive_bisection) :
    mainThroughPartition X argv = Sum.inl
      { trace :=
          (if !(X.sanityCheck (X.processCommandLineInput argv)).partition.quiet_mode then
            [Event.printBanner] else []) ++
          [Event.cerr "V-Cycles are not supported in recursive bisection mode."]
        status := -1 } := by
  unfold mainThroughPartition
  simp [hv, hm]

/-- The run of `main` when the V-cycle check does not fire reaches the call of
`partitioner.partition`, after seeding the generator and reading the file. -/
theorem mainThroughPartition_of_accepted {H : Type} (X : Externals H) (argv : List String)
    (h : (X.sanityCheck (X.processCommandLineInput argv)).partition.global_search_iterations = 0
      ∨ (X.sanityCheck (X.processCommandLineInput argv)).partition.mode = Mode.direct_kway) :
    ∃ t hypergraph context hypergraph' context',
      mainThroughPartition X argv = Sum.inr
        (t ++ [Event.setSeed (X.sanityCheck (X.processCommandLineInput argv)).partition.seed,
          Event.createHypergraphFromFile
            (X.sanityCheck (X.processCommandLineInput argv)).partition.graph_filename
            (X.sanityCheck (X.processCommandLineInput argv)).partition.k,
          Event.partition hypergraph context], hypergraph', context') := by
  have hcond : ((X.sanityCheck (X.processCommandLineInput argv)).partition.global_search_iterations
        != 0 &&
      (X.sanityCheck (X.processCommandLineInput argv)).partition.mode
        == Mode.recursive_bisection) = false := by
    rcases h with h | h
    · simp [h]
    · simp [h]
  unfold mainThroughPartition
  simp only [hcond, Bool.false_eq_true, if_false, List.append_assoc, List.cons_append,
    List.nil_append]
  exact ⟨_, _, _, _, _, rfl⟩

/-- The events recorded before the self-check stay at the front of the trace
of `main`. -/
theorem mainAfterPartition_trace {H : Type} (X : Externals H) (t : List (Event H))
    (hypergraph : H) (context : Context) :
    ∃ rest, (mainAfterPartition X t hypergraph context).trace = t ++ rest ∧
      rest.any Event.isPartition = false := by
  unfold mainAfterPartition
  cases firstMisplacedFixedVertex X hypergraph (X.fixedVertices hypergraph) with
  | some hn => exact ⟨_, rfl, rfl⟩
  | none =>
    refine ⟨(if context.partition.write_fixed_vertex_file then
        [Event.writeFixedVertexPartitionFile hypergraph
          context.partition.graph_fixed_vertex_filename] else []) ++
      ((if X.GATHER_STATS then [Event.printPartitioningStatistics] else []) ++
      ((if !context.partition.quiet_mode then
        [Event.printPartitioningResults hypergraph context, Event.logEmptyLine] else []) ++
      ([Event.writePartitionFile hypergraph context.partition.graph_partition_filename] ++
      (if context.partition.sp_process_output then [Event.serialize context hypergraph]
        else [])))), ?_, ?_⟩
    · simp only [List.append_assoc]
    · simp only [List.any_append, Bool.or_eq_false_iff]
      refine ⟨?_, ?_, ?_, rfl, ?_⟩ <;> split <;> rfl

/-- C11. When the configuration asks for V-cycles in recursive bisection mode,
`main` ends with a nonzero status and its trace has no seeding of the random
number generator, no reading of the hypergraph and no call of
`Partitioner::partition`; with no V-cycles, or in direct k-way mode, the check
lets the run go on: the generator is seeded, the hypergraph read and
`Partitioner::partition` called. -/
theorem main_rejects_v_cycles_in_recursive_bisection {H : Type} (X : Externals H)
    (argv : List String) :
    (0 < (X.sanityCheck (X.processCommandLineInput argv)).partition.global_search_iterations ∧
      (X.sanityCheck (X.processCommandLineInput argv)).partition.mode
        = Mode.recursive_bisection →
      (main X argv).status ≠ 0 ∧
      (main X argv).trace.any Event.isSetSeed = false ∧
      (main X argv).trace.any Event.isCreateHypergraphFromFile = false ∧
      (main X argv).trace.any Event.isPartition = false) ∧
    ((X.sanityCheck (X.processCommandLineInput argv)).partition.global_search_iterations = 0 ∨
      (X.sanityCheck (X.processCommandLineInput argv)).partition.mode = Mode.direct_kway →
      (∃ t hypergraph context, mainThroughPartition X argv = Sum.inr (t, hypergraph, context)) ∧
      (main X argv).trace.any Event.isSetSeed = true ∧
      (main X argv).trace.any Event.isCreateHypergraphFromFile = true ∧
      (main X argv).trace.any Event.isPartition = true) := by
  constructor
  · rintro ⟨hv, hm⟩
    have hmain : main X argv =
        { trace :=
            (if !(X.sanityCheck (X.processCommandLineInput argv)).partition.quiet_mode then
              [Event.printBanner] else []) ++
            [Event.cerr "V-Cycles are not supported in recursive bisection mode."]
          status := -1 } := by
      simp only [main, mainThroughPartition_of_rejected X argv (Nat.pos_iff_ne_zero.1 hv) hm]
    rw [hmain]
    have hst : (-1 : Int) ≠ 0 := by decide
    refine ⟨hst, ?_, ?_, ?_⟩ <;> simp only [List.any_append] <;> split <;> rfl
  · intro h
    obtain ⟨t, hg, ctx, hg1, ctx1, hp⟩ := mainThroughPartition_of_accepted X argv h
    generalize hT : t ++
      [Event.setSeed (X.sanityCheck (X.processCommandLineInput argv)).partition.seed,
        Event.createHypergraphFromFile
          (X.sanityCheck (X.processCommandLineInput argv)).partition.graph_filename
          (X.sanityCheck (X.processCommandLineInput argv)).partition.k,
        Event.partition hg ctx] = T at hp
    have hmain : main X argv = mainAfterPartition X T hg1 ctx1 := by
      simp only [main, hp]
    obtain ⟨rest, hrest, _⟩ := mainAfterPartition_trace X T hg1 ctx1
    rw [hmain, hrest, ← hT]
    refine ⟨⟨_, _, _, hp⟩, ?_, ?_, ?_⟩ <;>
      simp [List.any_append, Event.isSetSeed, Event.isCreateHypergraphFromFile,
        Event.isPartition]

/-- C11 on the sample command line with two V-cycles in recursive bisection
mode: the run ends at the check. -/
theorem main_rejects_v_cycles_in_recursive_bisection_witness :
    (0 < (sampleExternalsVCycles.sanityCheck
        (sampleExternalsVCycles.processCommandLineInput [])).partition.global_search_iterations ∧
      (sampleExternalsVCycles.sanityCheck
        (sampleExternalsVCycles.processCommandLineInput [])).partition.mode
        = Mode.recursive_bisection) ∧
    (main sampleExternalsVCycles []).status ≠ 0 ∧
    (main sampleExternalsVCycles []).trace.any Event.isSetSeed = false ∧
    (main sampleExternalsVCycles []).trace.any Event.isCreateHypergraphFromFile = false ∧
    (main sampleExternalsVCycles []).trace.any Event.isPartition = false :=
  ⟨⟨by decide, rfl⟩,
    (main_rejects_v_cycles_in_recursive_bisection sampleExternalsVCycles []).1
      ⟨by decide, rfl⟩⟩

/-- The sample run with two V-cycles in recursive bisection mode: the banner,
the line on `cerr`, status -1. -/
theorem main_sample_run_v_cycles :
    (main sampleExternalsVCycles []).status = -1 ∧
    (main sampleExternalsVCycles []).trace.length = 2 :=
  ⟨rfl, rfl⟩

/-- The call of `partitioner.partition` in a run that passes the V-cycle check:
it receives the hypergraph `G` that the generator stage leaves, and the context
`C0` of that stage with the sparsifier switched off when `G` has fixed
vertices. -/
theorem mainThroughPartition_call {H : Type} (X : Externals H) (argv : List String)
    (h : (X.sanityCheck (X.processCommandLineInput argv)).partition.global_search_iterations = 0
      ∨ (X.sanityCheck (X.processCommandLineInput argv)).partition.mode = Mode.direct_kway) :
    ∃ t G C0 hypergraph' context',
      mainThroughPartition X argv = Sum.inr
        (t ++ [Event.partition G
          (if X.numFixedVertices G > 0 then
            { C0 with preprocessing := { enable_min_hash_sparsifier := false } }
           else C0)], hypergraph', context') ∧
      t.any Event.isPartition = false ∧
      (X.generatorsKeepSparsifier →
        C0.preprocessing.enable_min_hash_sparsifier =
          (X.sanityCheck (X.processCommandLineInput argv)).preprocessing.enable_min_hash_sparsifier)
      := by
  have hcond : ((X.sanityCheck (X.processCommandLineInput argv)).partition.global_search_iterations
        != 0 &&
      (X.sanityCheck (X.processCommandLineInput argv)).partition.mode
        == Mode.recursive_bisection) = false := by
    rcases h with h | h
    · simp [h]
    · simp [h]
  unfold mainThroughPartition
  simp only [hcond, Bool.false_eq_true, if_false]
  refine ⟨_, _, _, _, _, rfl, ?_, ?_⟩
  · simp only [List.any_append, Bool.or_eq_false_iff]
    exact ⟨by split <;> rfl, rfl⟩
  · intro hkeep
    split
    · exact (hkeep _ _).1
    · split
      · exact (hkeep _ _).2.1
      · split
        · exact (hkeep _ _).2.2
        · rfl

/-- C12. At the call of `Partitioner::partition` in `main`: when the hypergraph
has a fixed vertex, `enable_min_hash_sparsifier` is false in the context passed;
when it has none, and the fixed-vertex generators leave the flag alone, the
flag has its configured value. -/
theorem main_sparsifier_off_with_fixed_vertices {H : Type} (X : Externals H)
    (argv : List String) (hypergraph : H) (context : Context)
    (hcall : Event.partition hypergraph context ∈ (main X argv).trace) :
    (0 < X.numFixedVertices hypergraph →
      context.preprocessing.enable_min_hash_sparsifier = false) ∧
    (X.numFixedVertices hypergraph = 0 → X.generatorsKeepSparsifier →
      context.preprocessing.enable_min_hash_sparsifier =
        (X.sanityCheck (X.processCommandLineInput argv)).preprocessing.enable_min_hash_sparsifier)
    := by
  by_cases hacc :
      (X.sanityCheck (X.processCommandLineInput argv)).partition.global_search_iterations = 0 ∨
      (X.sanityCheck (X.processCommandLineInput argv)).partition.mode = Mode.direct_kway
  · obtain ⟨t, G, C0, hg1, ctx1, hp, ht, hkeep⟩ := mainThroughPartition_call X argv hacc
    generalize hT : t ++ [Event.partition G
      (if X.numFixedVertices G > 0 then
        { C0 with preprocessing := { enable_min_hash_sparsifier := false } }
       else C0)] = T at hp
    have hmain : main X argv = mainAfterPartition X T hg1 ctx1 := by
      simp only [main, hp]
    obtain ⟨rest, hrest, hnp⟩ := mainAfterPartition_trace X T hg1 ctx1
    rw [hmain, hrest, ← hT] at hcall
    have hnot : ∀ l : List (Event H), l.any Event.isPartition = false →
        Event.partition hypergraph context ∉ l := by
      intro l hl hmem
      have := List.any_eq_true.2 ⟨_, hmem, (rfl : Event.isPartition
        (Event.partition hypergraph context) = true)⟩
      rw [hl] at this
      exact absurd this (by decide)
    rcases List.mem_append.1 hcall with hc | hc
    · rcases List.mem_append.1 hc with hc | hc
      · exact absurd hc (hnot t ht)
      · have heq := List.mem_singleton.1 hc
        injection heq with hG hC
        subst hG
        by_cases hfix : X.numFixedVertices hypergraph > 0
        · rw [if_pos hfix] at hC
          refine ⟨fun _ => by rw [hC], fun h0 => ?_⟩
          omega
        · rw [if_neg hfix] at hC
          refine ⟨fun hpos => absurd hpos hfix, fun _ hk => ?_⟩
          rw [hC]
          exact hkeep hk
    · exact absurd hc (hnot rest hnp)
  · have hv : (X.sanityCheck (X.processCommandLineInput argv)).partition.global_search_iterations
        ≠ 0 := fun h0 => hacc (Or.inl h0)
    have hm : (X.sanityCheck (X.processCommandLineInput argv)).partition.mode
        = Mode.recursive_bisection := by
      cases hmode : (X.sanityCheck (X.processCommandLineInput argv)).partition.mode with
      | recursive_bisection => rfl
      | direct_kway => exact absurd (Or.inr hmode) hacc
    have hmain : main X argv =
        { trace :=
            (if !(X.sanityCheck (X.processCommandLineInput argv)).partition.quiet_mode then
              [Event.printBanner] else []) ++
            [Event.cerr "V-Cycles are not supported in recursive bisection mode."]
          status := -1 } := by
      simp only [main, mainThroughPartition_of_rejected X argv hv hm]
    rw [hmain] at hcall
    exfalso
    rcases List.mem_append.1 hcall with hc | hc
    · split at hc
      · exact Event.noConfusion (List.mem_singleton.1 hc)
      · exact absurd hc (List.not_mem_nil _)
    · exact Event.noConfusion (List.mem_singleton.1 hc)

/-- The sample generators return the context they receive. -/
theorem sampleExternalsFree_generatorsKeepSparsifier :
    sampleExternalsFree.generatorsKeepSparsifier :=
  fun _ _ => ⟨rfl, rfl, rfl⟩

/-- C12 on the sample runs.  With two fixed vertices the context passed to
`Partitioner::partition` has the flag off although it was configured on;
without fixed vertices, and with the bubble generator selected, the flag is
still on. -/
theorem main_sparsifier_off_with_fixed_vertices_witness :
    (Event.partition [-1, -1, -1]
        { sampleContext with preprocessing := { enable_min_hash_sparsifier := false } }
      ∈ (main sampleExternals []).trace ∧
      0 < sampleExternals.numFixedVertices [-1, -1, -1] ∧
      (sampleExternals.sanityCheck (sampleExternals.processCommandLineInput
        [])).preprocessing.enable_min_hash_sparsifier = true ∧
      ({ sampleContext with preprocessing := { enable_min_hash_sparsifier := false } }
        : Context).preprocessing.enable_min_hash_sparsifier = false) ∧
    (Event.partition [-1, -1, -1]
        (sampleExternalsFree.sanityCheck (sampleExternalsFree.processCommandLineInput []))
      ∈ (main sampleExternalsFree []).trace ∧
      sampleExternalsFree.numFixedVertices [-1, -1, -1] = 0 ∧
      sampleExternalsFree.generatorsKeepSparsifier ∧
      (sampleExternalsFree.sanityCheck (sampleExternalsFree.processCommandLineInput
        [])).preprocessing.enable_min_hash_sparsifier =
        (sampleExternalsFree.sanityCheck (sampleExternalsFree.processCommandLineInput
          [])).preprocessing.enable_min_hash_sparsifier) :=
  have h1 : Event.partition [-1, -1, -1]
      { sampleContext with preprocessing := { enable_min_hash_sparsifier := false } }
      ∈ (main sampleExternals []).trace :=
    List.Mem.tail _ (List.Mem.tail _ (List.Mem.head _))
  have h2 : Event.partition [-1, -1, -1]
      (sampleExternalsFree.sanityCheck (sampleExternalsFree.processCommandLineInput []))
      ∈ (main sampleExternalsFree []).trace :=
    List.Mem.tail _ (List.Mem.tail _ (List.Mem.head _))
  ⟨⟨h1, by decide, rfl,
    (main_sparsifier_off_with_fixed_vertices sampleExternals [] _ _ h1).1 (by decide)⟩,
   ⟨h2, rfl, sampleExternalsFree_generatorsKeepSparsifier,
    (main_sparsifier_off_with_fixed_vertices sampleExternalsFree [] _ _ h2).2 rfl
      sampleExternalsFree_generatorsKeepSparsifier⟩⟩

/-- The sample run without fixed vertices: the flag passed to
`Partitioner::partition` is on, and the run writes the partition file and
returns 0. -/
theorem main_sample_run_free :
    (sampleExternalsFree.sanityCheck (sampleExternalsFree.processCommandLineInput
      [])).preprocessing.enable_min_hash_sparsifier = true ∧
    (main sampleExternalsFree []).status = 0 ∧
    (main sampleExternalsFree []).trace.any Event.isWritePartitionFile = true :=
  ⟨rfl, rfl, rfl⟩

end kahypar
